import Mathlib

/-!
Shallow embedding of the secret-substitution and egress-policy module of the
gondolin repository (`createHttpHooks` and its helpers from the hooks source
file), together with executable models of the platform primitives that module
uses (JavaScript string search/replace, Node base64 buffers, WHATWG URL
hostname/query extraction, IPv4/IPv6 textual addresses).  The claims C1-C10
are settled as theorems at the end of the file.
-/

namespace Gondolin

/-- JavaScript strings are modelled as lists of characters. -/
abbrev JsString := List Char

/-- Lowercase one ASCII character.  Models the ASCII fragment of
`String.prototype.toLowerCase` and of the regex `i` flag's case folding;
the hostnames and patterns handled by the module are ASCII. -/
def lcChar (c : Char) : Char :=
  if 'A' ≤ c ∧ c ≤ 'Z' then Char.ofNat (c.toNat + 32) else c

/-- Model of `String.prototype.toLowerCase` (ASCII fragment). -/
def lcString (s : JsString) : JsString := s.map lcChar

/-- Model of the JavaScript whitespace class used by `trim` and regex `\s`
(restricted to the common ASCII whitespace characters). -/
def isJsWhitespace (c : Char) : Bool :=
  c = ' ' ∨ c = '\t' ∨ c = '\n' ∨ c = '\x0d' ∨ c = '\x0b' ∨ c = '\x0c'

/-- Model of `String.prototype.trim`. -/
def trimString (s : JsString) : JsString :=
  ((s.dropWhile isJsWhitespace).reverse.dropWhile isJsWhitespace).reverse

/-- Split a string at every occurrence of a separator character; models
`String.prototype.split` with a one-character separator. -/
def splitOnChar (sep : Char) : JsString → List JsString
  | [] => [[]]
  | c :: rest =>
    if c = sep then [] :: splitOnChar sep rest
    else
      match splitOnChar sep rest with
      | [] => [[c]]
      | piece :: more => (c :: piece) :: more

/-- Split a string at every (greedy, left-to-right, non-overlapping)
occurrence of a non-empty separator string; models
`String.prototype.split(sep)`. -/
def splitOnSub (p : JsString) : JsString → List JsString
  | [] => [[]]
  | c :: rest =>
    if h : p ≠ [] ∧ p <+: (c :: rest) then
      [] :: splitOnSub p ((c :: rest).drop p.length)
    else
      match splitOnSub p rest with
      | [] => [[c]]
      | piece :: more => (c :: piece) :: more
termination_by s => s.length
decreasing_by
  · obtain ⟨hne, hpre⟩ := h
    have hlen : 1 ≤ p.length := by
      cases p with
      | nil => exact absurd rfl hne
      | cons a t => simp
    simp only [List.length_drop, List.length_cons]
    omega
  · simp

/-- Join a list of strings with a separator between consecutive pieces;
models `Array.prototype.join`. -/
def joinSep (sep : JsString) : List JsString → JsString
  | [] => []
  | [x] => x
  | x :: xs => x ++ sep ++ joinSep sep xs

/-- Replace every greedy left-to-right non-overlapping occurrence of the
non-empty string `p` by `v`; models `value.split(search).join(replacement)`
for a non-empty `search`. -/
def replaceAllGo (p v : JsString) : JsString → JsString
  | [] => []
  | c :: rest =>
    if h : p ≠ [] ∧ p <+: (c :: rest) then
      v ++ replaceAllGo p v ((c :: rest).drop p.length)
    else
      c :: replaceAllGo p v rest
termination_by s => s.length
decreasing_by
  · obtain ⟨hne, hpre⟩ := h
    have hlen : 1 ≤ p.length := by
      cases p with
      | nil => exact absurd rfl hne
      | cons a t => simp
    simp only [List.length_drop, List.length_cons]
    omega
  · simp

/-- Model of `String.prototype.includes`. -/
def jsIncludes (s sub : JsString) : Bool := decide (sub <:+: s)

/-- Decimal digit test. -/
def isDigitChar (c : Char) : Bool := decide ('0' ≤ c ∧ c ≤ '9')

/-- Numeric value of a decimal digit character. -/
def digitVal (c : Char) : Nat := c.toNat - '0'.toNat

/-- Value of a string of decimal digits. -/
def decValue (s : JsString) : Nat := s.foldl (fun acc c => 10 * acc + digitVal c) 0

/-- Model of JavaScript `Number(part)` composed with the `Number.isInteger`
guard, restricted to the strings produced here (runs of decimal digits, and
the empty string, which `Number` maps to `0`).  Strings outside this fragment
are mapped to `none` (`NaN`); this is faithful for every string the module
actually passes to `Number`, namely the parts of a dotted-quad that already
passed `net.isIP`, and the parts of addresses rendered by the module itself. -/
def jsNumberNat (s : JsString) : Option Nat :=
  if s = [] then some 0
  else if s.all isDigitChar then some (decValue s) else none

/-- Decimal digit character of a value below ten. -/
def natToDecDigit (n : Nat) : Char := Char.ofNat ('0'.toNat + n)

/-- Render a natural number in decimal; models JavaScript number-to-string
conversion for natural numbers. -/
def natToDec (n : Nat) : JsString :=
  if h : n < 10 then [natToDecDigit n]
  else natToDec (n / 10) ++ [natToDecDigit (n % 10)]
termination_by n
decreasing_by
  simp only [not_lt] at h
  omega

/-- Value of a hexadecimal digit character, `none` for other characters. -/
def hexDigitVal (c : Char) : Option Nat :=
  if isDigitChar c then some (digitVal c)
  else if 'a' ≤ c ∧ c ≤ 'f' then some (c.toNat - 'a'.toNat + 10)
  else if 'A' ≤ c ∧ c ≤ 'F' then some (c.toNat - 'A'.toNat + 10)
  else none

/-- Lowercase hexadecimal digit character of a value below sixteen. -/
def natToHexDigit (n : Nat) : Char :=
  if n < 10 then Char.ofNat ('0'.toNat + n)
  else Char.ofNat ('a'.toNat + (n - 10))

/-- Two lowercase hex digits of a byte; models one byte of
`Buffer.prototype.toString("hex")`. -/
def byteToHex (b : Nat) : JsString :=
  [natToHexDigit (b / 16 % 16), natToHexDigit (b % 16)]

/-- Hex rendering of a byte list; models `Buffer.prototype.toString("hex")`. -/
def bytesToHex (bs : List Nat) : JsString := bs.flatMap byteToHex

/-- Value of a base64 alphabet character, `none` for every other character
(including the `=` padding, which Node's decoder skips). -/
def b64CharVal (c : Char) : Option Nat :=
  if 'A' ≤ c ∧ c ≤ 'Z' then some (c.toNat - 'A'.toNat)
  else if 'a' ≤ c ∧ c ≤ 'z' then some (c.toNat - 'a'.toNat + 26)
  else if '0' ≤ c ∧ c ≤ '9' then some (c.toNat - '0'.toNat + 52)
  else if c = '+' then some 62
  else if c = '/' then some 63
  else none

/-- Base64 alphabet character of a 6-bit value. -/
def b64ValChar (n : Nat) : Char :=
  if n < 26 then Char.ofNat ('A'.toNat + n)
  else if n < 52 then Char.ofNat ('a'.toNat + (n - 26))
  else if n < 62 then Char.ofNat ('0'.toNat + (n - 52))
  else if n = 62 then '+'
  else '/'

/-- Pack a list of 6-bit values into bytes, dropping the trailing bits of an
incomplete final group, as Node's forgiving base64 decoder does. -/
def b64DecodeVals : List Nat → List Nat
  | v0 :: v1 :: v2 :: v3 :: rest =>
    (v0 * 4 + v1 / 16) :: (v1 % 16 * 16 + v2 / 4) :: (v2 % 4 * 64 + v3) ::
      b64DecodeVals rest
  | [v0, v1, v2] => [v0 * 4 + v1 / 16, v1 % 16 * 16 + v2 / 4]
  | [v0, v1] => [v0 * 4 + v1 / 16]
  | _ => []

/-- Model of Node `Buffer.from(s, "base64")`: characters outside the base64
alphabet (including `=` padding) are skipped, then 6-bit groups are packed
into bytes.  This decoder never throws. -/
def b64DecodeBytes (s : JsString) : List Nat := b64DecodeVals (s.filterMap b64CharVal)

/-- Model of `Buffer.prototype.toString("base64")`: canonical base64 with
`=` padding. -/
def b64EncodeBytes : List Nat → JsString
  | [] => []
  | [b0] => [b64ValChar (b0 / 4 % 64), b64ValChar (b0 % 4 * 16), '=', '=']
  | [b0, b1] =>
    [b64ValChar (b0 / 4 % 64), b64ValChar (b0 % 4 * 16 + b1 / 16),
     b64ValChar (b1 % 16 * 4), '=']
  | b0 :: b1 :: b2 :: rest =>
    [b64ValChar (b0 / 4 % 64), b64ValChar (b0 % 4 * 16 + b1 / 16),
     b64ValChar (b1 % 16 * 4 + b2 / 64), b64ValChar (b2 % 64)] ++
      b64EncodeBytes rest

/-- Byte-transparent text model of `Buffer.prototype.toString("utf8")`: each
byte becomes the character with that code point.  Faithful for the ASCII
credential data handled here. -/
def bytesToString (bs : List Nat) : JsString := bs.map fun b => Char.ofNat (b % 256)

/-- Byte-transparent text model of `Buffer.from(s, "utf8")`. -/
def stringToBytes (s : JsString) : List Nat := s.map fun c => c.toNat % 256

/-- Decode a base64 string to text (the composition the module uses). -/
def b64DecodeString (s : JsString) : JsString := bytesToString (b64DecodeBytes s)

/-- Encode text to base64 (the composition the module uses). -/
def b64EncodeString (s : JsString) : JsString := b64EncodeBytes (stringToBytes s)

/-- Parse one decimal octet of a dotted-quad as `inet_pton` does: one to
three digits, no leading zero, value at most 255. -/
def parseOctet : JsString → Option Nat
  | [c] => if isDigitChar c then some (digitVal c) else none
  | c :: rest =>
    if c = '0' then none
    else if (c :: rest).all isDigitChar ∧ (c :: rest).length ≤ 3 then
      if decValue (c :: rest) ≤ 255 then some (decValue (c :: rest)) else none
    else none
  | [] => none

/-- Strict dotted-quad IPv4 parse; models the IPv4 side of Node `net.isIP`. -/
def parseIPv4 (s : JsString) : Option (Nat × Nat × Nat × Nat) :=
  match splitOnChar '.' s with
  | [p0, p1, p2, p3] =>
    match parseOctet p0, parseOctet p1, parseOctet p2, parseOctet p3 with
    | some a, some b, some c, some d => some (a, b, c, d)
    | _, _, _, _ => none
  | _ => none

/-- Render four octets as a dotted-quad string. -/
def renderIPv4 (a b c d : Nat) : JsString :=
  natToDec a ++ ('.' :: natToDec b) ++ ('.' :: natToDec c) ++ ('.' :: natToDec d)

/-- Parse a group of one to four hex digits as a 16-bit hextet. -/
def parseHextet : JsString → Option Nat
  | [a] => hexDigitVal a
  | [a, b] =>
    match hexDigitVal a, hexDigitVal b with
    | some x, some y => some (16 * x + y)
    | _, _ => none
  | [a, b, c] =>
    match hexDigitVal a, hexDigitVal b, hexDigitVal c with
    | some x, some y, some z => some (256 * x + 16 * y + z)
    | _, _, _ => none
  | [a, b, c, d] =>
    match hexDigitVal a, hexDigitVal b, hexDigitVal c, hexDigitVal d with
    | some x, some y, some z, some w => some (4096 * x + 256 * y + 16 * z + w)
    | _, _, _, _ => none
  | _ => none

/-- Split a string at the first occurrence of a double colon, if any. -/
def findDoubleColon : JsString → Option (JsString × JsString)
  | [] => none
  | [_] => none
  | c1 :: c2 :: rest =>
    if c1 = ':' ∧ c2 = ':' then some ([], rest)
    else (findDoubleColon (c2 :: rest)).map fun p => (c1 :: p.1, p.2)

/-- Parse the final group of an IPv6 address, which may be an embedded
dotted-quad contributing two hextets. -/
def parseLastGroup (g : JsString) : Option (List Nat) :=
  if g.contains '.' then
    match parseIPv4 g with
    | some (a, b, c, d) => some [a * 256 + b, c * 256 + d]
    | none => none
  else (parseHextet g).map fun v => [v]

/-- Parse a non-final run of IPv6 groups (plain hextets only). -/
def parseGroupsNoLast : List JsString → Option (List Nat)
  | [] => some []
  | g :: gs =>
    match parseHextet g, parseGroupsNoLast gs with
    | some v, some vs => some (v :: vs)
    | _, _ => none

/-- Parse a run of IPv6 groups whose final group may be an embedded
dotted-quad. -/
def parseGroups : List JsString → Option (List Nat)
  | [] => some []
  | [g] => parseLastGroup g
  | g :: gs =>
    match parseHextet g, parseGroups gs with
    | some v, some vs => some (v :: vs)
    | _, _ => none

/-- Modelled from the spec: the repository's `ip-utils` module is not under
`src/`; its `parseIPv6Hextets` is reconstructed here as a parser of RFC 4291
textual IPv6 addresses (hex groups, at most one `::` compression, optional
trailing embedded dotted-quad) into exactly eight 16-bit hextets, the form
the in-src `isPrivateIPv6` consumes. -/
def parseIPv6Hextets (s : JsString) : Option (List Nat) :=
  match findDoubleColon s with
  | some (l, r) =>
    if (findDoubleColon r).isSome then none
    else
      match (if l = [] then some [] else parseGroupsNoLast (splitOnChar ':' l)),
            (if r = [] then some [] else parseGroups (splitOnChar ':' r)) with
      | some lv, some rv =>
        if lv.length + rv.length ≤ 7 then
          some (lv ++ List.replicate (8 - lv.length - rv.length) 0 ++ rv)
        else none
      | _, _ => none
  | none =>
    match parseGroups (splitOnChar ':' s) with
    | some v => if v.length = 8 then some v else none
    | none => none

/-- Modelled from the spec: the repository's `ip-utils` module is not under
`src/`; its `extractIPv4Mapped` is reconstructed here, returning the
embedded dotted-quad string of an IPv4-mapped address `::ffff:a.b.c.d`
(hextets `0,0,0,0,0,0xffff,h6,h7`) and `none` otherwise. -/
def extractIPv4Mapped (h : List Nat) : Option JsString :=
  match h with
  | [a0, a1, a2, a3, a4, a5, h6, h7] =>
    if a0 = 0 ∧ a1 = 0 ∧ a2 = 0 ∧ a3 = 0 ∧ a4 = 0 ∧ a5 = 65535 then
      some (renderIPv4 (h6 / 256) (h6 % 256) (h7 / 256) (h7 % 256))
    else none
  | _ => none

/-- Model of Node `net.isIP`: 4 for a strict dotted-quad IPv4 string, 6 for
a textual IPv6 address, 0 otherwise. -/
def netIsIP (s : JsString) : Nat :=
  if (parseIPv4 s).isSome then 4
  else if (parseIPv6Hextets s).isSome then 6
  else 0

/-- Structural model of a WHATWG `URL` object as the module uses it: scheme,
optional userinfo, host (with brackets for IPv6 literals), optional port,
path, optional query (without `?`), optional fragment (without `#`).
The model neither normalizes nor percent-encodes components; it keeps the
textual pieces as written, which is what the module's read-modify-write of
the query relies on. -/
structure ParsedUrl where
  scheme : JsString
  userinfo : Option JsString
  host : JsString
  port : Option JsString
  path : JsString
  search : Option JsString
  hash : Option JsString
deriving Repr, DecidableEq

/-- Split a string at the first occurrence of a character; the second
component is `none` when the character does not occur. -/
def splitAtChar (sep : Char) : JsString → JsString × Option JsString
  | [] => ([], none)
  | c :: rest =>
    if c = sep then ([], some rest)
    else
      match splitAtChar sep rest with
      | (a, b) => (c :: a, b)

/-- Split a string at the last occurrence of a character, if any. -/
def splitAtLastChar (sep : Char) (s : JsString) : Option (JsString × JsString) :=
  match splitAtChar sep s.reverse with
  | (_, none) => none
  | (revAfter, some revBefore) => some (revBefore.reverse, revAfter.reverse)

/-- Scheme characters accepted by the URL model. -/
def isSchemeChar (c : Char) : Bool :=
  c.isAlpha ∨ c.isDigit ∨ c = '+' ∨ c = '-' ∨ c = '.'

/-- Split an authority's host-port part. -/
def parseHostPort (hp : JsString) : Option (JsString × Option JsString) :=
  match hp with
  | '[' :: rest =>
    let inside := rest.takeWhile fun c => c ≠ ']'
    match rest.drop inside.length with
    | ']' :: after =>
      match after with
      | [] => some ('[' :: (inside ++ [']']), none)
      | ':' :: p =>
        if p ≠ [] ∧ p.all isDigitChar then some ('[' :: (inside ++ [']']), some p)
        else none
      | _ => none
    | _ => none
  | _ =>
    match splitAtChar ':' hp with
    | (h, none) => some (h, none)
    | (h, some p) =>
      if p ≠ [] ∧ p.all isDigitChar then some (h, some p) else none

/-- Model of the WHATWG `URL` parser for the absolute `scheme://…` URLs the
module handles.  URLs without a `scheme://host` shape are rejected; in the
source both a parser exception and a hostless URL reach the same state, a
target hostname of `""`. -/
def parseUrl (s : JsString) : Option ParsedUrl :=
  let schemePart := s.takeWhile fun c => c ≠ ':'
  if schemePart = [] ∨ ¬ schemePart.all isSchemeChar ∨
      ¬ (schemePart.headD ' ').isAlpha then none
  else
    match s.drop schemePart.length with
    | ':' :: '/' :: '/' :: rest1 =>
      let authority := rest1.takeWhile fun c => ¬ (c = '/' ∨ c = '?' ∨ c = '#')
      let rest2 := rest1.drop authority.length
      let uihp :=
        match splitAtLastChar '@' authority with
        | some (ui, hp) => (some ui, hp)
        | none => (none, authority)
      match parseHostPort uihp.2 with
      | none => none
      | some (host, port) =>
        if host = [] then none
        else
          let path := rest2.takeWhile fun c => ¬ (c = '?' ∨ c = '#')
          let rest3 := rest2.drop path.length
          let sh :=
            match rest3 with
            | '?' :: t => (some (t.takeWhile fun c => c ≠ '#'),
                           t.drop (t.takeWhile fun c => c ≠ '#').length)
            | other => (none, other)
          let hash :=
            match sh.2 with
            | '#' :: t => some t
            | _ => none
          some { scheme := schemePart, userinfo := uihp.1, host := host,
                 port := port, path := path, search := sh.1, hash := hash }
    | _ => none

/-- Reassemble a `ParsedUrl`; models `URL.prototype.toString` for the
unnormalized structural model. -/
def serializeUrl (u : ParsedUrl) : JsString :=
  u.scheme ++ (':' :: '/' :: '/' :: []) ++
    (match u.userinfo with | some ui => ui ++ ['@'] | none => []) ++
    u.host ++
    (match u.port with | some p => ':' :: p | none => []) ++
    u.path ++
    (match u.search with | some q => '?' :: q | none => []) ++
    (match u.hash with | some h => '#' :: h | none => [])

/-- Truthiness of the `search` accessor (`"?query"` when the query is
non-empty, `""` otherwise): models the source's `!parsed.search` test. -/
def searchTruthy (u : ParsedUrl) : Bool :=
  match u.search with
  | some q => q ≠ []
  | none => false

/-- Percent-decode an `application/x-www-form-urlencoded` token, in the
byte-transparent text model (`+` is a space, `%xy` one byte). -/
def percentDecode : JsString → JsString
  | [] => []
  | '%' :: a :: b :: t =>
    match hexDigitVal a, hexDigitVal b with
    | some x, some y => Char.ofNat (16 * x + y) :: percentDecode t
    | _, _ => '%' :: percentDecode (a :: b :: t)
  | '+' :: t => ' ' :: percentDecode t
  | c :: t => c :: percentDecode t

/-- Uppercase hexadecimal digit character of a value below sixteen. -/
def natToHexDigitUpper (n : Nat) : Char :=
  if n < 10 then Char.ofNat ('0'.toNat + n)
  else Char.ofNat ('A'.toNat + (n - 10))

/-- Percent-encode one character in `application/x-www-form-urlencoded`
form, in the byte-transparent text model. -/
def formEncodeChar (c : Char) : JsString :=
  if c = ' ' then ['+']
  else if c.isAlphanum ∨ c = '*' ∨ c = '-' ∨ c = '.' ∨ c = '_' then [c]
  else ['%', natToHexDigitUpper (c.toNat % 256 / 16), natToHexDigitUpper (c.toNat % 16)]

/-- Percent-encode an `application/x-www-form-urlencoded` token. -/
def formEncode (s : JsString) : JsString := s.flatMap formEncodeChar

/-- Model of iterating `URLSearchParams.prototype.entries()` over a raw
query string: `&`-separated pieces, empty pieces skipped, each piece split
at the first `=`, names and values percent-decoded. -/
def parseQueryParams (q : JsString) : List (JsString × JsString) :=
  (splitOnChar '&' q).filterMap fun piece =>
    if piece = [] then none
    else
      match splitAtChar '=' piece with
      | (n, v) => some (percentDecode n, percentDecode (v.getD []))

/-- Model of `URLSearchParams.prototype.toString()`. -/
def serializeParams (ps : List (JsString × JsString)) : JsString :=
  joinSep ['&'] (ps.map fun p => formEncode p.1 ++ ('=' :: formEncode p.2))

/-- Modelled from the spec: the `http-utils` module is not under `src/`;
its `HttpRequestBlockedError` — the only error this module throws — is the
error carried by the `Except` results ("fail the request with
`HttpRequestBlockedError`"). -/
inductive HttpError where
  | blocked (message : JsString)
deriving Repr, DecidableEq

/-- Embedding of `HttpHookRequest` as the hooks module consumes it: method,
url, and the header map (`Record<string, string>` modelled as an
insertion-ordered association list with distinct keys). -/
structure HttpHookRequest where
  method : JsString
  url : JsString
  headers : List (JsString × JsString)
deriving Repr, DecidableEq

/-- Embedding of the module-private `SecretEntry` record. -/
structure SecretEntry where
  name : JsString
  placeholder : JsString
  value : JsString
  hosts : List JsString
deriving Repr, DecidableEq

/-- Embedding of the exported `SecretDefinition` record. -/
structure SecretDefinition where
  hosts : List JsString
  value : JsString
deriving Repr, DecidableEq

/-- Evaluation of the regex tail `(.*seg₁)(.*seg₂)…$` produced by
`matchHostname`'s pattern compilation: each segment must occur after the
previous one, and the final segment must end the string. -/
def restMatch : List JsString → JsString → Bool
  | [], s => s.isEmpty
  | seg :: segs, s =>
    s.tails.any fun t => seg.isPrefixOf t && restMatch segs (t.drop seg.length)

/-- Evaluation of the full anchored regex `^seg₀(.*seg₁)…$`. -/
def matchSegs : List JsString → JsString → Bool
  | [], _ => false
  | p :: rest, s => p.isPrefixOf s && restMatch rest (s.drop p.length)

/-- Embedding of `matchHostname`.  The source splits the pattern on `*`,
escapes every regex metacharacter in the fragments (the escape class
`[.+?^$\x7b\x7d()|[\]\\]` covers every metacharacter other than the already
consumed `*`), joins them with `.*`, anchors with `^…$`, and tests with the
`i` flag.  This model evaluates that regex family directly as a
literal-segment glob over lowercased strings; lowercasing both sides models
the `i` flag for the ASCII hostnames involved. -/
def matchHostname (hostname pattern : JsString) : Bool :=
  if pattern = [] then false
  else if pattern = ['*'] then true
  else matchSegs (splitOnChar '*' (lcString pattern)) (lcString hostname)

/-- Embedding of `matchesAnyHost`. -/
def matchesAnyHost (hostname : JsString) (patterns : List JsString) : Bool :=
  patterns.any fun pattern => matchHostname (lcString hostname) pattern

/-- Embedding of `normalizeHostnamePattern` (`pattern.trim().toLowerCase()`). -/
def normalizeHostnamePattern (pattern : JsString) : JsString :=
  lcString (trimString pattern)

/-- Loop of `uniqueHosts` with the explicit `seen` set (modelled as the
list of members already added). -/
def uniqueHostsGo (seen : List JsString) : List JsString → List JsString
  | [] => []
  | host :: rest =>
    let normalized := normalizeHostnamePattern host
    if normalized = [] ∨ normalized ∈ seen then uniqueHostsGo seen rest
    else normalized :: uniqueHostsGo (normalized :: seen) rest

/-- Embedding of `uniqueHosts`. -/
def uniqueHosts (hosts : List JsString) : List JsString := uniqueHostsGo [] hosts

/-- Embedding of `isPrivateIPv4` (split on `.`, convert with `Number`,
require four integer octets, then the range tests). -/
def isPrivateIPv4 (ip : JsString) : Bool :=
  match (splitOnChar '.' ip).map jsNumberNat with
  | [some a, some b, some _, some _] =>
    if a = 0 then true
    else if a = 10 then true
    else if a = 127 then true
    else if a = 169 ∧ b = 254 then true
    else if a = 172 ∧ 16 ≤ b ∧ b ≤ 31 then true
    else if a = 192 ∧ b = 168 then true
    else if a = 100 ∧ 64 ≤ b ∧ b ≤ 127 then true
    else if a = 255 then true
    else false
  | _ => false

/-- Embedding of `isPrivateIPv6`. -/
def isPrivateIPv6 (ip : JsString) : Bool :=
  match parseIPv6Hextets ip with
  | none => false
  | some hextets =>
    let isAllZero := hextets.all fun value => value = 0
    let isLoopback :=
      ((hextets.take 7).all fun value => value = 0) && hextets.getD 7 0 = 1
    if isAllZero || isLoopback then true
    else if hextets.getD 0 0 &&& 0xfe00 = 0xfc00 then true
    else if hextets.getD 0 0 &&& 0xffc0 = 0xfe80 then true
    else
      match extractIPv4Mapped hextets with
      | some mapped => isPrivateIPv4 mapped
      | none => false

/-- Embedding of `isInternalAddress`. -/
def isInternalAddress (ip : JsString) : Bool :=
  let family := netIsIP ip
  if family = 4 then isPrivateIPv4 ip
  else if family = 6 then isPrivateIPv6 ip
  else false

/-- The `{hostname, ip}` record passed to the `isIpAllowed` hook. -/
structure IpInfo where
  hostname : JsString
  ip : JsString
deriving Repr, DecidableEq

/-- Embedding of the `isIpAllowed` hook built by `createHttpHooks`; the
`async` caller-supplied policy callback is modelled as a pure boolean
function, `none` when the caller installed none. -/
def isIpAllowedHook (blockInternalRanges : Bool) (allowedHosts : List JsString)
    (custom : Option (IpInfo → Bool)) (info : IpInfo) : Bool :=
  if blockInternalRanges && isInternalAddress info.ip then false
  else if decide (allowedHosts.length > 0) && ! matchesAnyHost info.hostname allowedHosts then
    false
  else
    match custom with
    | some f => f info
    | none => true

/-- Embedding of `getHostname` (`new URL(request.url).hostname.toLowerCase()`
with parse failures mapped to `""`). -/
def getHostname (request : HttpHookRequest) : JsString :=
  match parseUrl request.url with
  | some u => lcString u.host
  | none => []

/-- Structural evaluation of the source regex `^(Basic)(\s+)(\S+)(\s*)$`
(case-insensitive): the four capture groups, with the scheme as written. -/
def matchBasicAuthShape (value : JsString) :
    Option (JsString × JsString × JsString × JsString) :=
  let scheme := value.take 5
  if lcString scheme = ('b' :: 'a' :: 's' :: 'i' :: 'c' :: []) then
    let rest := value.drop 5
    let ws := rest.takeWhile isJsWhitespace
    if ws = [] then none
    else
      let rest2 := rest.drop ws.length
      let token := rest2.takeWhile fun c => ¬ isJsWhitespace c
      if token = [] then none
      else
        let trailing := rest2.drop token.length
        if trailing.all isJsWhitespace then some (scheme, ws, token, trailing)
        else none
  else none

/-- Embedding of `decodeBasicAuth`.  Node's base64 `Buffer.from` never
throws, so the source's `catch` branch is unreachable in the model. -/
def decodeBasicAuth (value : JsString) : Option JsString :=
  match matchBasicAuthShape value with
  | none => none
  | some (_, _, token, _) => some (b64DecodeString token)

/-- Evaluation of the regex `^(authorization|proxy-authorization)$` with the
`i` flag. -/
def isAuthHeaderName (name : JsString) : Bool :=
  decide (lcString name = ("authorization").toList) ||
    decide (lcString name = ("proxy-authorization").toList)

/-- Embedding of `requestContainsSecretValueInHeaders`. -/
def requestContainsSecretValueInHeaders (headers : List (JsString × JsString))
    (entry : SecretEntry) : Bool :=
  if entry.value = [] then false
  else
    headers.any fun header =>
      if header.2 = [] then false
      else if jsIncludes header.2 entry.value then true
      else if isAuthHeaderName header.1 then
        match decodeBasicAuth header.2 with
        | some decoded => decide (decoded ≠ []) && jsIncludes decoded entry.value
        | none => false
      else false

/-- Embedding of `requestContainsSecretValueInQuery`. -/
def requestContainsSecretValueInQuery (url : JsString) (entry : SecretEntry) : Bool :=
  if entry.value = [] then false
  else
    match parseUrl url with
    | none => false
    | some parsed =>
      if ! searchTruthy parsed then false
      else
        (parseQueryParams (parsed.search.getD [])).any fun p =>
          jsIncludes p.1 entry.value || jsIncludes p.2 entry.value

/-- The message of every `HttpRequestBlockedError` the module throws. -/
def blockedMessage (entry : SecretEntry) (hostname : JsString) : JsString :=
  ("secret ").toList ++ entry.name ++ (" not allowed for host: ").toList ++
    (if hostname = [] then ("unknown").toList else hostname)

/-- Loop of `assertSecretValuesAllowedForHost` over the entries. -/
def assertSecretValuesGo (request : HttpHookRequest) (hostname : JsString)
    (checkQuery : Bool) : List SecretEntry → Except HttpError Unit
  | [] => .ok ()
  | entry :: rest =>
    if matchesAnyHost hostname entry.hosts then
      assertSecretValuesGo request hostname checkQuery rest
    else if requestContainsSecretValueInHeaders request.headers entry then
      .error (.blocked (blockedMessage entry hostname))
    else if checkQuery && requestContainsSecretValueInQuery request.url entry then
      .error (.blocked (blockedMessage entry hostname))
    else assertSecretValuesGo request hostname checkQuery rest

/-- Embedding of `assertSecretValuesAllowedForHost` (a thrown
`HttpRequestBlockedError` is the `Except.error` case). -/
def assertSecretValuesAllowedForHost (request : HttpHookRequest) (hostname : JsString)
    (entries : List SecretEntry) (checkQuery : Bool) : Except HttpError Unit :=
  assertSecretValuesGo request hostname checkQuery entries

/-- Embedding of `replaceAll` (`value.split(search).join(replacement)` with
the empty-search guard). -/
def replaceAll (value search replacement : JsString) : JsString :=
  if search = [] then value else replaceAllGo search replacement value

/-- Embedding of `assertSecretAllowedForHost`. -/
def assertSecretAllowedForHost (entry : SecretEntry) (hostname : JsString) :
    Except HttpError Unit :=
  if matchesAnyHost hostname entry.hosts then .ok ()
  else .error (.blocked (blockedMessage entry hostname))

/-- Loop of `replaceSecretPlaceholdersInString` with the running `updated`
accumulator. -/
def replaceSecretPlaceholdersGo (hostname : JsString) :
    JsString → List SecretEntry → Except HttpError JsString
  | updated, [] => .ok updated
  | updated, entry :: rest =>
    if ! jsIncludes updated entry.placeholder then
      replaceSecretPlaceholdersGo hostname updated rest
    else
      match assertSecretAllowedForHost entry hostname with
      | .error e => .error e
      | .ok _ =>
        replaceSecretPlaceholdersGo hostname
          (replaceAll updated entry.placeholder entry.value) rest

/-- Embedding of `replaceSecretPlaceholdersInString`. -/
def replaceSecretPlaceholdersInString (value hostname : JsString)
    (entries : List SecretEntry) : Except HttpError JsString :=
  replaceSecretPlaceholdersGo hostname value entries

/-- Embedding of `replaceBasicAuthSecretPlaceholders`. -/
def replaceBasicAuthSecretPlaceholders (headerName headerValue hostname : JsString)
    (entries : List SecretEntry) : Except HttpError JsString :=
  if ! isAuthHeaderName headerName then .ok headerValue
  else
    match matchBasicAuthShape headerValue with
    | none => .ok headerValue
    | some (scheme, whitespace, token, trailing) =>
      let decoded := b64DecodeString token
      match replaceSecretPlaceholdersInString decoded hostname entries with
      | .error e => .error e
      | .ok updatedDecoded =>
        if updatedDecoded = decoded then .ok headerValue
        else .ok (scheme ++ whitespace ++ b64EncodeString updatedDecoded ++ trailing)

/-- Embedding of `replaceSecretPlaceholdersInHeaders` (the copy-and-assign
loop over `Object.entries` becomes a `mapM` over the association list). -/
def replaceSecretPlaceholdersInHeaders (request : HttpHookRequest) (hostname : JsString)
    (entries : List SecretEntry) : Except HttpError (List (JsString × JsString)) :=
  if entries = [] then .ok request.headers
  else
    request.headers.mapM fun header => do
      let updated ← replaceSecretPlaceholdersInString header.2 hostname entries
      let updated2 ← replaceBasicAuthSecretPlaceholders header.1 updated hostname entries
      pure (header.1, updated2)

/-- Embedding of `replaceSecretPlaceholdersInUrlParameters` (the `changed`
flag of the source is the comparison of the rebuilt parameter list with the
original one). -/
def replaceSecretPlaceholdersInUrlParameters (url hostname : JsString)
    (entries : List SecretEntry) (enabled : Bool) : Except HttpError JsString :=
  if ¬ enabled ∨ entries = [] then .ok url
  else
    match parseUrl url with
    | none => .ok url
    | some parsed =>
      if ! searchTruthy parsed then .ok url
      else do
        let params := parseQueryParams (parsed.search.getD [])
        let updatedParams ← params.mapM fun p => do
          let n ← replaceSecretPlaceholdersInString p.1 hostname entries
          let v ← replaceSecretPlaceholdersInString p.2 hostname entries
          pure (n, v)
        if updatedParams = params then pure url
        else
          let nextSearch := serializeParams updatedParams
          pure (serializeUrl
            { parsed with search := if nextSearch = [] then none else some nextSearch })

/-- Embedding of the `applySecretsToRequest` closure of `createHttpHooks`
(`replaceSecretsInQuery ?? false` is the `replaceSecretsInQuery` argument,
and the secret entries are those built at hook-creation time). -/
def applySecretsToRequest (replaceSecretsInQuery : Bool) (entries : List SecretEntry)
    (request : HttpHookRequest) : Except HttpError HttpHookRequest := do
  let hostname := getHostname request
  let _ ← assertSecretValuesAllowedForHost request hostname entries replaceSecretsInQuery
  let headers ← replaceSecretPlaceholdersInHeaders request hostname entries
  let url ← replaceSecretPlaceholdersInUrlParameters request.url hostname entries
    replaceSecretsInQuery
  pure { request with url := url, headers := headers }

/-- Embedding of `CreateHttpHooksOptions` (the fields these claims touch;
`Record` iteration order is the list order). -/
structure CreateHttpHooksOptions where
  allowedHosts : List JsString := []
  secrets : List (JsString × SecretDefinition) := []
  replaceSecretsInQuery : Bool := false
  blockInternalRanges : Bool := true

/-- Placeholder generated for the i-th secret; models
`GONDOLIN_SECRET_${crypto.randomBytes(24).toString("hex")}` with an
injected byte source (the spec itself asks for an injected RNG). -/
def placeholderFor (rng : Nat → Nat) (i : Nat) : JsString :=
  ("GONDOLIN_SECRET_").toList ++
    bytesToHex ((List.range 24).map fun j => rng (24 * i + j) % 256)

/-- The `secretEntries` list built by `createHttpHooks`. -/
def makeSecretEntries (rng : Nat → Nat)
    (secrets : List (JsString × SecretDefinition)) : List SecretEntry :=
  secrets.mapIdx fun i nameSecret =>
    { name := nameSecret.1, placeholder := placeholderFor rng i,
      value := nameSecret.2.value,
      hosts := nameSecret.2.hosts.map normalizeHostnamePattern }

/-- The `env` record built by `createHttpHooks`. -/
def createEnv (rng : Nat → Nat)
    (secrets : List (JsString × SecretDefinition)) : List (JsString × JsString) :=
  secrets.mapIdx fun i nameSecret => (nameSecret.1, placeholderFor rng i)

/-- The resolved `allowedHosts` list returned by `createHttpHooks`. -/
def resolvedAllowedHosts (options : CreateHttpHooksOptions) (rng : Nat → Nat) :
    List JsString :=
  uniqueHosts (options.allowedHosts ++
    (makeSecretEntries rng options.secrets).flatMap fun e => e.hosts)

/-! ### Basic facts about the character model -/

theorem toNat_ofNat_lt {n : Nat} (h : n < 55296) : (Char.ofNat n).toNat = n := by
  have hv : n.isValidChar := Or.inl h
  rw [Char.ofNat, dif_pos hv]
  rfl

theorem char_eq_of_toNat_eq {a b : Char} (h : a.toNat = b.toNat) : a = b :=
  Char.eq_of_val_eq (UInt32.ext h)

theorem char_le_iff_toNat {a b : Char} : a ≤ b ↔ a.toNat ≤ b.toNat := Iff.rfl

theorem lcChar_idem (c : Char) : lcChar (lcChar c) = lcChar c := by
  unfold lcChar
  by_cases h : 'A' ≤ c ∧ c ≤ 'Z'
  · rw [if_pos h, if_neg]
    intro hcon
    have h1 : c.toNat ≤ 90 := char_le_iff_toNat.mp h.2
    have h2 : 65 ≤ c.toNat := char_le_iff_toNat.mp h.1
    have h3 : (Char.ofNat (c.toNat + 32)).toNat = c.toNat + 32 :=
      toNat_ofNat_lt (by omega)
    have h4 : (Char.ofNat (c.toNat + 32)).toNat ≤ 90 := char_le_iff_toNat.mp hcon.2
    omega
  · rw [if_neg h, if_neg h]

theorem lcString_idem (s : JsString) : lcString (lcString s) = lcString s := by
  unfold lcString
  rw [List.map_map]
  exact List.map_congr_left fun c _ => lcChar_idem c

/-! ### Claim C5 -/

/-- The built-in denial condition of the admission check: the IP falls in the
internal-range list while `blockInternalRanges` is on, or `allowedHosts` is
non-empty and the hostname matches no pattern. -/
def builtinDeniesIp (blockInternalRanges : Bool) (allowedHosts : List JsString)
    (info : IpInfo) : Prop :=
  (blockInternalRanges = true ∧ isInternalAddress info.ip = true) ∨
    (allowedHosts ≠ [] ∧ matchesAnyHost info.hostname allowedHosts = false)

/-- C5: for every caller-supplied `isIpAllowed` hook and every input, a
built-in denial makes the combined result `false` regardless of the hook;
when the built-ins pass, the result is exactly the hook's verdict (so the
hook is consulted only then); and a `true` result implies the built-ins
passed — the hook narrows and never widens the built-in allow set. -/
theorem claim_C5_custom_hook_narrows_only (block : Bool) (allowedHosts : List JsString)
    (f : IpInfo → Bool) (info : IpInfo) :
    (builtinDeniesIp block allowedHosts info →
      isIpAllowedHook block allowedHosts (some f) info = false ∧
        isIpAllowedHook block allowedHosts none info = false) ∧
    (¬ builtinDeniesIp block allowedHosts info →
      isIpAllowedHook block allowedHosts (some f) info = f info) ∧
    (isIpAllowedHook block allowedHosts (some f) info = true →
      isIpAllowedHook block allowedHosts none info = true) := by
  unfold builtinDeniesIp isIpAllowedHook
  by_cases h1 : block = true ∧ isInternalAddress info.ip = true
  · obtain ⟨hb, hi⟩ := h1
    subst hb
    simp [hi]
  · by_cases h2 : allowedHosts ≠ [] ∧ matchesAnyHost info.hostname allowedHosts = false
    · obtain ⟨hne, hm⟩ := h2
      have hb : (block && isInternalAddress info.ip) = false := by
        cases block <;> simp_all
      have hlen : decide (allowedHosts.length > 0) = true := by
        cases allowedHosts with
        | nil => exact absurd rfl hne
        | cons a t => simp
      simp [hb, hlen, hm, hne]
    · have hb : (block && isInternalAddress info.ip) = false := by
        cases hbl : block
        · rfl
        · cases hii : isInternalAddress info.ip
          · rfl
          · exact absurd ⟨hbl, hii⟩ h1
      have hm : (decide (allowedHosts.length > 0) && ! matchesAnyHost info.hostname allowedHosts) = false := by
        cases hal : allowedHosts with
        | nil => simp
        | cons a t =>
          cases hmm : matchesAnyHost info.hostname (a :: t) with
          | false => exact absurd ⟨by rw [hal]; simp, by rw [hal]; exact hmm⟩ h2
          | true => simp
      simp [hb, hm, h1, h2]

/-- Concrete instance of C5: with the built-ins passing (public IP, empty
allowlist), a constantly-false custom hook forces denial. -/
theorem claim_C5_witness :
    isIpAllowedHook true [] (some fun _ => false)
      ⟨("example.com").toList, ("8.8.8.8").toList⟩ = false :=
  (claim_C5_custom_hook_narrows_only true [] (fun _ => false)
    ⟨("example.com").toList, ("8.8.8.8").toList⟩).2.1
    (by unfold builtinDeniesIp; decide)

/-! ### Claim C4 -/

theorem splitOnChar_ne_nil (sep : Char) (s : JsString) : splitOnChar sep s ≠ [] := by
  cases s with
  | nil => simp [splitOnChar]
  | cons c rest =>
    unfold splitOnChar
    by_cases h : c = sep
    · simp [h]
    · rw [if_neg h]
      cases hs : splitOnChar sep rest <;> simp

/-- Spec-side denotation of the compiled regex tail `(.*seg₁)…(.*segₙ)$`:
the string is gap₁ ++ seg₁ ++ … ++ gapₙ ++ segₙ for arbitrary gap strings. -/
inductive RestTail : List JsString → JsString → Prop
  | nil : RestTail [] []
  | cons (gap seg : JsString) {segs : List JsString} {s : JsString} :
      RestTail segs s → RestTail (seg :: segs) (gap ++ (seg ++ s))

theorem restMatch_iff (segs : List JsString) (s : JsString) :
    restMatch segs s = true ↔ RestTail segs s := by
  induction segs generalizing s with
  | nil =>
    unfold restMatch
    rw [List.isEmpty_iff]
    constructor
    · rintro rfl
      exact .nil
    · rintro h
      cases h
      rfl
  | cons seg segs ih =>
    unfold restMatch
    rw [List.any_eq_true]
    constructor
    · rintro ⟨t, ht, hcond⟩
      rw [Bool.and_eq_true] at hcond
      obtain ⟨hpre, hrest⟩ := hcond
      rw [List.mem_tails] at ht
      rw [ List.isPrefixOf_iff_prefix] at hpre
      obtain ⟨u, rfl⟩ := hpre
      obtain ⟨gap, hgap⟩ := ht
      rw [List.drop_left] at hrest
      exact hgap ▸ RestTail.cons gap seg ((ih _).mp hrest)
    · rintro h
      cases h with
      | @cons gap seg segs' s' hrest =>
        refine ⟨seg ++ s', (List.mem_tails _ _).mpr ⟨gap, rfl⟩, ?_⟩
        rw [Bool.and_eq_true]
        refine ⟨by rw [ List.isPrefixOf_iff_prefix]; exact ⟨s', rfl⟩, ?_⟩
        rw [List.drop_left]
        exact (ih _).mpr hrest

theorem matchSegs_iff (p : JsString) (segs : List JsString) (s : JsString) :
    matchSegs (p :: segs) s = true ↔ ∃ t, s = p ++ t ∧ RestTail segs t := by
  unfold matchSegs
  rw [Bool.and_eq_true, List.isPrefixOf_iff_prefix]
  constructor
  · rintro ⟨⟨t, rfl⟩, hrest⟩
    rw [List.drop_left] at hrest
    exact ⟨t, rfl, (restMatch_iff _ _).mp hrest⟩
  · rintro ⟨t, rfl, hrest⟩
    exact ⟨⟨t, rfl⟩, by rw [List.drop_left]; exact (restMatch_iff _ _).mpr hrest⟩

/-- Spec-side denotation of the anchored, literal glob: split the pattern on
`*`; the subject must be seg₀ ++ gap₁ ++ seg₁ ++ … ++ gapₙ ++ segₙ, segments
compared character-for-character, the first anchored at the start and the
last at the end, the gaps arbitrary. -/
def GlobMatches (pattern subject : JsString) : Prop :=
  match splitOnChar '*' pattern with
  | [] => False
  | p :: rest => ∃ t, subject = p ++ t ∧ RestTail rest t

/-- C4: hostname matching of a non-empty pattern is exactly the anchored
decomposition of the lowercased hostname along the lowercased pattern's
literal `*`-segments (so both ends are anchored, every non-`*` character —
metacharacter or not — matches literally, and each `*` matches an arbitrary
segment of the hostname); matching is insensitive to the case of the
hostname; and with an empty `allowedHosts` the hostname half of the
admission check passes for every hostname. -/
theorem claim_C4_glob_matching :
    (∀ hostname pattern, pattern ≠ [] →
      (matchHostname hostname pattern = true ↔
        GlobMatches (lcString pattern) (lcString hostname))) ∧
    (∀ hostname pattern,
      matchHostname hostname pattern = matchHostname (lcString hostname) pattern) ∧
    (∀ block hostname ip,
      isIpAllowedHook block [] none ⟨hostname, ip⟩ = ! (block && isInternalAddress ip)) := by
  refine ⟨?_, ?_, ?_⟩
  · intro hostname pattern hne
    unfold matchHostname
    by_cases hstar : pattern = ['*']
    · subst hstar
      rw [if_neg hne, if_pos rfl]
      have hlc : lcString ['*'] = ['*'] := by decide
      unfold GlobMatches
      rw [hlc]
      have hsp : splitOnChar '*' ['*'] = [[], []] := by decide
      rw [hsp]
      constructor
      · intro _
        refine ⟨lcString hostname, rfl, ?_⟩
        have h0 : RestTail [[]] (lcString hostname ++ ([] ++ [])) :=
          RestTail.cons (lcString hostname) [] RestTail.nil
        simpa using h0
      · intro _
        rfl
    · rw [if_neg hne, if_neg hstar]
      unfold GlobMatches
      cases hsp : splitOnChar '*' (lcString pattern) with
      | nil => exact absurd hsp (splitOnChar_ne_nil _ _)
      | cons p rest => exact matchSegs_iff p rest (lcString hostname)
  · intro hostname pattern
    unfold matchHostname
    rw [lcString_idem]
  · intro block hostname ip
    unfold isIpAllowedHook
    cases hb : block && isInternalAddress ip <;> simp

/-- Concrete instance of C4: `*.example.com` matches `API.example.com`
(case-insensitively, anchored), decomposing as `"" ++ "api" ++ ".example.com"`. -/
theorem claim_C4_witness :
    matchHostname ("API.example.com").toList ("*.example.com").toList = true ∧
    GlobMatches (lcString ("*.example.com").toList)
      (lcString ("API.example.com").toList) :=
  have hne : ("*.example.com").toList ≠ [] := by decide
  have h := (claim_C4_glob_matching.1 ("API.example.com").toList
    ("*.example.com").toList hne).mpr
  have hg : GlobMatches (lcString ("*.example.com").toList)
      (lcString ("API.example.com").toList) := by
    unfold GlobMatches
    rw [show splitOnChar '*' (lcString ("*.example.com").toList) =
      [[], (".example.com").toList] from by decide]
    refine ⟨("api.example.com").toList, by decide, ?_⟩
    have h0 : RestTail [(".example.com").toList]
        (("api").toList ++ ((".example.com").toList ++ [])) :=
      RestTail.cons _ _ RestTail.nil
    simpa using h0
  ⟨h hg, hg⟩

/-! ### Claim C3: support lemmas -/

theorem testBit_65024 (i : Nat) :
    Nat.testBit 65024 i = (decide (9 ≤ i) && decide (i ≤ 15)) := by
  by_cases h : i ≤ 15
  · interval_cases i <;> decide
  · have h16 : 16 ≤ i := by omega
    have hpow : (2 : Nat) ^ 16 ≤ 2 ^ i := Nat.pow_le_pow_right (by norm_num) h16
    have hlt : (65024 : Nat) < 2 ^ i := lt_of_lt_of_le (by norm_num) hpow
    rw [Nat.testBit_lt_two_pow hlt]
    simp [h]

theorem testBit_65472 (i : Nat) :
    Nat.testBit 65472 i = (decide (6 ≤ i) && decide (i ≤ 15)) := by
  by_cases h : i ≤ 15
  · interval_cases i <;> decide
  · have h16 : 16 ≤ i := by omega
    have hpow : (2 : Nat) ^ 16 ≤ 2 ^ i := Nat.pow_le_pow_right (by norm_num) h16
    have hlt : (65472 : Nat) < 2 ^ i := lt_of_lt_of_le (by norm_num) hpow
    rw [Nat.testBit_lt_two_pow hlt]
    simp [h]

theorem land_65024 (h : Nat) (hh : h < 65536) : h &&& 65024 = 512 * (h / 512) := by
  have hrw : (512 : Nat) * (h / 512) = (h >>> 9) <<< 9 := by
    rw [Nat.shiftLeft_eq, Nat.shiftRight_eq_div_pow]
    norm_num [Nat.mul_comm]
  rw [hrw]
  apply Nat.eq_of_testBit_eq
  intro i
  rw [Nat.testBit_and, testBit_65024, Nat.testBit_shiftLeft, Nat.testBit_shiftRight]
  by_cases h9 : 9 ≤ i
  · by_cases h15 : i ≤ 15
    · have hi : 9 + (i - 9) = i := by omega
      rw [hi]
      simp [h9, h15, Bool.and_comm]
    · have h16 : 16 ≤ i := by omega
      have hpow : (2 : Nat) ^ 16 ≤ 2 ^ i := Nat.pow_le_pow_right (by norm_num) h16
      have hbit : h.testBit i = false :=
        Nat.testBit_lt_two_pow (lt_of_lt_of_le hh hpow)
      have hi : 9 + (i - 9) = i := by omega
      rw [hi, hbit]
      simp [h15]
  · simp [h9]

theorem land_65472 (h : Nat) (hh : h < 65536) : h &&& 65472 = 64 * (h / 64) := by
  have hrw : (64 : Nat) * (h / 64) = (h >>> 6) <<< 6 := by
    rw [Nat.shiftLeft_eq, Nat.shiftRight_eq_div_pow]
    norm_num [Nat.mul_comm]
  rw [hrw]
  apply Nat.eq_of_testBit_eq
  intro i
  rw [Nat.testBit_and, testBit_65472, Nat.testBit_shiftLeft, Nat.testBit_shiftRight]
  by_cases h6 : 6 ≤ i
  · by_cases h15 : i ≤ 15
    · have hi : 6 + (i - 6) = i := by omega
      rw [hi]
      simp [h6, h15, Bool.and_comm]
    · have h16 : 16 ≤ i := by omega
      have hpow : (2 : Nat) ^ 16 ≤ 2 ^ i := Nat.pow_le_pow_right (by norm_num) h16
      have hbit : h.testBit i = false :=
        Nat.testBit_lt_two_pow (lt_of_lt_of_le hh hpow)
      have hi : 6 + (i - 6) = i := by omega
      rw [hi, hbit]
      simp [h15]
  · simp [h6]

theorem digitVal_le (c : Char) (h : isDigitChar c = true) : digitVal c ≤ 9 := by
  unfold isDigitChar at h
  rw [decide_eq_true_iff] at h
  have h1 : c.toNat ≤ '9'.toNat := char_le_iff_toNat.mp h.2
  have h9 : ('9' : Char).toNat = 57 := by decide
  have h0 : ('0' : Char).toNat = 48 := by decide
  unfold digitVal
  omega

theorem parseOctet_some {p : JsString} {v : Nat} (h : parseOctet p = some v) :
    jsNumberNat p = some v ∧ v ≤ 255 := by
  match p with
  | [] => exact absurd h (by simp [parseOctet])
  | [c] =>
    simp only [parseOctet] at h
    by_cases hd : isDigitChar c = true
    · rw [if_pos hd] at h
      injection h with h
      subst h
      refine ⟨?_, le_trans (digitVal_le c hd) (by norm_num)⟩
      unfold jsNumberNat
      rw [if_neg (by simp), if_pos (by simp [hd])]
      unfold decValue
      simp [digitVal]
    · rw [if_neg hd] at h
      exact absurd h (by simp)
  | c :: c2 :: rest =>
    simp only [parseOctet] at h
    by_cases hz : c = '0'
    · rw [if_pos hz] at h
      exact absurd h (by simp)
    · rw [if_neg hz] at h
      by_cases hcond : (c :: c2 :: rest).all isDigitChar = true ∧ (c :: c2 :: rest).length ≤ 3
      · rw [if_pos hcond] at h
        by_cases hle : decValue (c :: c2 :: rest) ≤ 255
        · rw [if_pos hle] at h
          injection h with h
          subst h
          refine ⟨?_, hle⟩
          unfold jsNumberNat
          rw [if_neg (by simp), if_pos hcond.1]
        · rw [if_neg hle] at h
          exact absurd h (by simp)
      · rw [if_neg hcond] at h
        exact absurd h (by simp)

/-- The range list of the claim for IPv4, written as the spec states it. -/
def V4InClaimRanges (a b : Nat) : Prop :=
  a = 0 ∨ a = 10 ∨ a = 127 ∨ (a = 169 ∧ b = 254) ∨ (a = 172 ∧ 16 ≤ b ∧ b ≤ 31) ∨
    (a = 192 ∧ b = 168) ∨ (a = 100 ∧ 64 ≤ b ∧ b ≤ 127) ∨ a = 255

theorem isPrivateIPv4_of_octets {p0 p1 p2 p3 : JsString} {a b c d : Nat}
    (h0 : jsNumberNat p0 = some a) (h1 : jsNumberNat p1 = some b)
    (h2 : jsNumberNat p2 = some c) (h3 : jsNumberNat p3 = some d)
    {s : JsString} (hsp : splitOnChar '.' s = [p0, p1, p2, p3]) :
    (isPrivateIPv4 s = true ↔ V4InClaimRanges a b) := by
  unfold isPrivateIPv4
  rw [hsp]
  simp only [List.map_cons, List.map_nil, h0, h1, h2, h3]
  unfold V4InClaimRanges
  split_ifs with g1 g2 g3 g4 g5 g6 g7 g8 <;> simp <;> omega


theorem hexDigitVal_lt {c : Char} {x : Nat} (h : hexDigitVal c = some x) : x < 16 := by
  unfold hexDigitVal at h
  split_ifs at h with h1 h2 h3
  · injection h with h
    subst h
    exact lt_of_le_of_lt (digitVal_le c h1) (by norm_num)
  · injection h with h
    subst h
    have hc : c.toNat ≤ ('f' : Char).toNat := char_le_iff_toNat.mp h2.2
    have hf : ('f' : Char).toNat = 102 := by decide
    have ha : ('a' : Char).toNat = 97 := by decide
    omega
  · injection h with h
    subst h
    have hc : c.toNat ≤ ('F' : Char).toNat := char_le_iff_toNat.mp h3.2
    have hf : ('F' : Char).toNat = 70 := by decide
    have ha : ('A' : Char).toNat = 65 := by decide
    omega

theorem parseHextet_lt {g : JsString} {v : Nat} (h : parseHextet g = some v) :
    v < 65536 := by
  match g with
  | [] => simp [parseHextet] at h
  | [a] =>
    simp only [parseHextet] at h
    exact lt_of_lt_of_le (hexDigitVal_lt h) (by norm_num)
  | [a, b] =>
    simp only [parseHextet] at h
    cases hxa : hexDigitVal a with
    | none => rw [hxa] at h; simp at h
    | some x =>
      cases hxb : hexDigitVal b with
      | none => rw [hxa, hxb] at h; simp at h
      | some y =>
        rw [hxa, hxb] at h
        injection h with h
        subst h
        have b1 := hexDigitVal_lt hxa
        have b2 := hexDigitVal_lt hxb
        omega
  | [a, b, c] =>
    simp only [parseHextet] at h
    cases hxa : hexDigitVal a with
    | none => rw [hxa] at h; simp at h
    | some x =>
      cases hxb : hexDigitVal b with
      | none => rw [hxa, hxb] at h; simp at h
      | some y =>
        cases hxc : hexDigitVal c with
        | none => rw [hxa, hxb, hxc] at h; simp at h
        | some z =>
          rw [hxa, hxb, hxc] at h
          injection h with h
          subst h
          have b1 := hexDigitVal_lt hxa
          have b2 := hexDigitVal_lt hxb
          have b3 := hexDigitVal_lt hxc
          omega
  | [a, b, c, d] =>
    simp only [parseHextet] at h
    cases hxa : hexDigitVal a with
    | none => rw [hxa] at h; simp at h
    | some x =>
      cases hxb : hexDigitVal b with
      | none => rw [hxa, hxb] at h; simp at h
      | some y =>
        cases hxc : hexDigitVal c with
        | none => rw [hxa, hxb, hxc] at h; simp at h
        | some z =>
          cases hxd : hexDigitVal d with
          | none => rw [hxa, hxb, hxc, hxd] at h; simp at h
          | some w =>
            rw [hxa, hxb, hxc, hxd] at h
            injection h with h
            subst h
            have b1 := hexDigitVal_lt hxa
            have b2 := hexDigitVal_lt hxb
            have b3 := hexDigitVal_lt hxc
            have b4 := hexDigitVal_lt hxd
            omega
  | a :: b :: c :: d :: e :: t => simp [parseHextet] at h

theorem parseIPv4_elim {s : JsString} {a b c d : Nat}
    (h : parseIPv4 s = some (a, b, c, d)) :
    ∃ p0 p1 p2 p3, splitOnChar '.' s = [p0, p1, p2, p3] ∧
      jsNumberNat p0 = some a ∧ jsNumberNat p1 = some b ∧
      jsNumberNat p2 = some c ∧ jsNumberNat p3 = some d ∧
      a ≤ 255 ∧ b ≤ 255 ∧ c ≤ 255 ∧ d ≤ 255 := by
  unfold parseIPv4 at h
  split at h
  · rename_i p0 p1 p2 p3 hsp
    cases hq0 : parseOctet p0 with
    | none => rw [hq0] at h; simp at h
    | some v0 =>
      cases hq1 : parseOctet p1 with
      | none => rw [hq0, hq1] at h; simp at h
      | some v1 =>
        cases hq2 : parseOctet p2 with
        | none => rw [hq0, hq1, hq2] at h; simp at h
        | some v2 =>
          cases hq3 : parseOctet p3 with
          | none => rw [hq0, hq1, hq2, hq3] at h; simp at h
          | some v3 =>
            rw [hq0, hq1, hq2, hq3] at h
            injection h with h
            obtain ⟨ha, hb, hc, hd⟩ : v0 = a ∧ v1 = b ∧ v2 = c ∧ v3 = d := by
              rw [Prod.mk.injEq, Prod.mk.injEq, Prod.mk.injEq] at h
              exact ⟨h.1, h.2.1, h.2.2.1, h.2.2.2⟩
            subst ha hb hc hd
            obtain ⟨j0, l0⟩ := parseOctet_some hq0
            obtain ⟨j1, l1⟩ := parseOctet_some hq1
            obtain ⟨j2, l2⟩ := parseOctet_some hq2
            obtain ⟨j3, l3⟩ := parseOctet_some hq3
            exact ⟨p0, p1, p2, p3, hsp, j0, j1, j2, j3, l0, l1, l2, l3⟩
  · simp at h


theorem parseGroupsNoLast_bounds {gs : List JsString} {vs : List Nat}
    (h : parseGroupsNoLast gs = some vs) : ∀ v ∈ vs, v < 65536 := by
  induction gs generalizing vs with
  | nil =>
    simp only [parseGroupsNoLast] at h
    injection h with h
    subst h
    simp
  | cons g t ih =>
    simp only [parseGroupsNoLast] at h
    cases hg : parseHextet g with
    | none => rw [hg] at h; simp at h
    | some x =>
      cases ht : parseGroupsNoLast t with
      | none => rw [hg, ht] at h; simp at h
      | some xs =>
        rw [hg, ht] at h
        injection h with h
        subst h
        intro v hv
        rcases List.mem_cons.mp hv with rfl | hmem
        · exact parseHextet_lt hg
        · exact ih ht v hmem

theorem parseLastGroup_bounds {g : JsString} {vs : List Nat}
    (h : parseLastGroup g = some vs) : ∀ v ∈ vs, v < 65536 := by
  unfold parseLastGroup at h
  split_ifs at h with hdot
  · cases hp : parseIPv4 g with
    | none => rw [hp] at h; simp at h
    | some q =>
      obtain ⟨a, b, c, d⟩ := q
      rw [hp] at h
      injection h with h
      subst h
      obtain ⟨p0, p1, p2, p3, _, _, _, _, _, la, lb, lc, ld⟩ := parseIPv4_elim hp
      intro v hv
      rcases List.mem_cons.mp hv with rfl | hmem
      · omega
      · rcases List.mem_cons.mp hmem with rfl | hmem2
        · omega
        · simp at hmem2
  · cases hx : parseHextet g with
    | none => rw [hx] at h; simp at h
    | some x =>
      rw [hx] at h
      injection h with h
      subst h
      intro v hv
      rcases List.mem_cons.mp hv with rfl | hmem
      · exact parseHextet_lt hx
      · simp at hmem

theorem parseGroups_bounds {gs : List JsString} {vs : List Nat}
    (h : parseGroups gs = some vs) : ∀ v ∈ vs, v < 65536 := by
  induction gs generalizing vs with
  | nil =>
    simp only [parseGroups] at h
    injection h with h
    subst h
    simp
  | cons g t ih =>
    cases t with
    | nil =>
      simp only [parseGroups] at h
      exact parseLastGroup_bounds h
    | cons g2 t2 =>
      simp only [parseGroups] at h
      cases hg : parseHextet g with
      | none => rw [hg] at h; simp at h
      | some x =>
        cases ht : parseGroups (g2 :: t2) with
        | none => rw [hg, ht] at h; simp at h
        | some xs =>
          rw [hg, ht] at h
          injection h with h
          subst h
          intro v hv
          rcases List.mem_cons.mp hv with rfl | hmem
          · exact parseHextet_lt hg
          · exact ih ht v hmem

theorem parseIPv6Hextets_len_bounds {s : JsString} {h : List Nat}
    (hp : parseIPv6Hextets s = some h) : h.length = 8 ∧ ∀ v ∈ h, v < 65536 := by
  unfold parseIPv6Hextets at hp
  cases hfd : findDoubleColon s with
  | some lr =>
    obtain ⟨l, r⟩ := lr
    rw [hfd] at hp
    simp only at hp
    cases hr2 : (findDoubleColon r).isSome with
    | true => rw [hr2] at hp; simp at hp
    | false =>
    rw [hr2] at hp
    simp only [Bool.false_eq_true, if_false] at hp
    cases hl : (if l = [] then some [] else parseGroupsNoLast (splitOnChar ':' l)) with
    | none => rw [hl] at hp; simp at hp
    | some lv =>
      cases hrv : (if r = [] then some [] else parseGroups (splitOnChar ':' r)) with
      | none => rw [hl, hrv] at hp; simp at hp
      | some rv =>
        rw [hl, hrv] at hp
        simp only at hp
        split_ifs at hp with hlen
        injection hp with hp
        subst hp
        have hlv : ∀ v ∈ lv, v < 65536 := by
          by_cases hle : l = []
          · rw [if_pos hle] at hl
            injection hl with hl
            subst hl
            simp
          · rw [if_neg hle] at hl
            exact parseGroupsNoLast_bounds hl
        have hrvb : ∀ v ∈ rv, v < 65536 := by
          by_cases hre : r = []
          · rw [if_pos hre] at hrv
            injection hrv with hrv
            subst hrv
            simp
          · rw [if_neg hre] at hrv
            exact parseGroups_bounds hrv
        constructor
        · simp only [List.length_append, List.length_replicate]
          omega
        · intro v hv
          rcases List.mem_append.mp hv with hv1 | hv2
          · rcases List.mem_append.mp hv1 with hv3 | hv4
            · exact hlv v hv3
            · rw [List.eq_of_mem_replicate hv4]
              norm_num
          · exact hrvb v hv2
  | none =>
    rw [hfd] at hp
    simp only at hp
    cases hg : parseGroups (splitOnChar ':' s) with
    | none => rw [hg] at hp; simp at hp
    | some v =>
      rw [hg] at hp
      simp only at hp
      split_ifs at hp with hlen
      injection hp with hp
      subst hp
      exact ⟨hlen, parseGroups_bounds hg⟩


theorem splitOnChar_join (sep : Char) (s : JsString) :
    joinSep [sep] (splitOnChar sep s) = s := by
  induction s with
  | nil => rfl
  | cons c rest ih =>
    unfold splitOnChar
    by_cases h : c = sep
    · rw [if_pos h]
      cases hs : splitOnChar sep rest with
      | nil => exact absurd hs (splitOnChar_ne_nil _ _)
      | cons p m =>
        have hj : joinSep [sep] ([] :: p :: m) = [] ++ [sep] ++ joinSep [sep] (p :: m) :=
          rfl
        rw [hs] at ih
        rw [hj, ih]
        simp [h]
    · rw [if_neg h]
      cases hs : splitOnChar sep rest with
      | nil => exact absurd hs (splitOnChar_ne_nil _ _)
      | cons p m =>
        rw [hs] at ih
        cases m with
        | nil =>
          show c :: p = c :: rest
          have : p = rest := ih
          rw [this]
        | cons q m2 =>
          show (c :: p) ++ [sep] ++ joinSep [sep] (q :: m2) = c :: rest
          have : p ++ [sep] ++ joinSep [sep] (q :: m2) = rest := ih
          rw [← this]
          simp

theorem mem_of_mem_joinSep {c : Char} {sep : JsString} {pieces : List JsString}
    (h : c ∈ joinSep sep pieces) : c ∈ sep ∨ ∃ p ∈ pieces, c ∈ p := by
  induction pieces with
  | nil => simp [joinSep] at h
  | cons x xs ih =>
    cases xs with
    | nil => exact Or.inr ⟨x, by simp, h⟩
    | cons y ys =>
      have hj : joinSep sep (x :: y :: ys) = x ++ sep ++ joinSep sep (y :: ys) := rfl
      rw [hj] at h
      rcases List.mem_append.mp h with h1 | h2
      · rcases List.mem_append.mp h1 with h3 | h4
        · exact Or.inr ⟨x, by simp, h3⟩
        · exact Or.inl h4
      · rcases ih h2 with h5 | ⟨p, hp, hcp⟩
        · exact Or.inl h5
        · exact Or.inr ⟨p, by simp [hp], hcp⟩

theorem splitOnChar_no_sep {sep : Char} {s : JsString} (h : sep ∉ s) :
    splitOnChar sep s = [s] := by
  induction s with
  | nil => rfl
  | cons c rest ih =>
    unfold splitOnChar
    rw [if_neg (by intro he; exact h (he ▸ List.mem_cons_self c rest))]
    rw [ih (fun hm => h (List.mem_cons_of_mem c hm))]

theorem jsNumberNat_digits {p : JsString} {v : Nat} (h : jsNumberNat p = some v) :
    p = [] ∨ p.all isDigitChar = true := by
  unfold jsNumberNat at h
  split_ifs at h with h1 h2
  · exact Or.inl h1
  · exact Or.inr h2

theorem parseIPv4_no_colon {s : JsString} {q : Nat × Nat × Nat × Nat}
    (h : parseIPv4 s = some q) : ':' ∉ s := by
  obtain ⟨a, ⟨b, c, d⟩⟩ := q
  obtain ⟨p0, p1, p2, p3, hsp, j0, j1, j2, j3, _⟩ := parseIPv4_elim h
  intro hc
  rw [← splitOnChar_join '.' s, hsp] at hc
  rcases mem_of_mem_joinSep hc with h1 | ⟨p, hp, hcp⟩
  · simp at h1
  · have hdig : p = [] ∨ p.all isDigitChar = true := by
      simp only [List.mem_cons, List.not_mem_nil, or_false] at hp
      rcases hp with rfl | rfl | rfl | rfl
      · exact jsNumberNat_digits j0
      · exact jsNumberNat_digits j1
      · exact jsNumberNat_digits j2
      · exact jsNumberNat_digits j3
    rcases hdig with rfl | hall
    · simp at hcp
    · have : isDigitChar ':' = true := List.all_eq_true.mp hall ':' hcp
      simp [isDigitChar] at this

theorem findDoubleColon_eq {s l r : JsString} (h : findDoubleColon s = some (l, r)) :
    s = l ++ ':' :: ':' :: r := by
  induction s generalizing l with
  | nil => simp [findDoubleColon] at h
  | cons c1 rest ih =>
    cases rest with
    | nil => simp [findDoubleColon] at h
    | cons c2 rest2 =>
      unfold findDoubleColon at h
      split_ifs at h with hcc
      · injection h with h
        rw [Prod.mk.injEq] at h
        rw [← h.1, ← h.2]
        simp [hcc.1, hcc.2]
      · cases hfd : findDoubleColon (c2 :: rest2) with
        | none => rw [hfd] at h; simp at h
        | some p =>
          obtain ⟨l2, r2⟩ := p
          rw [hfd] at h
          simp only [Option.map] at h
          injection h with h
          rw [Prod.mk.injEq] at h
          obtain ⟨hl, hr⟩ := h
          rw [hr] at hfd
          have hrec := ih hfd
          rw [← hl, List.cons_append, ← hrec]

theorem findDoubleColon_has_colon {s : JsString} {p : JsString × JsString}
    (h : findDoubleColon s = some p) : ':' ∈ s := by
  obtain ⟨l, r⟩ := p
  rw [findDoubleColon_eq h]
  simp

theorem parseLastGroup_short {g : JsString} {vs : List Nat}
    (h : parseLastGroup g = some vs) : vs.length ≤ 2 := by
  unfold parseLastGroup at h
  split_ifs at h with hdot
  · cases hp : parseIPv4 g with
    | none => rw [hp] at h; simp at h
    | some q =>
      obtain ⟨a, b, c, d⟩ := q
      rw [hp] at h
      injection h with h
      subst h
      simp
  · cases hx : parseHextet g with
    | none => rw [hx] at h; simp at h
    | some x =>
      rw [hx] at h
      injection h with h
      subst h
      simp

theorem parseIPv6_has_colon {s : JsString} {h : List Nat}
    (hp : parseIPv6Hextets s = some h) : ':' ∈ s := by
  unfold parseIPv6Hextets at hp
  cases hfd : findDoubleColon s with
  | some lr => exact findDoubleColon_has_colon hfd
  | none =>
    rw [hfd] at hp
    simp only at hp
    cases hg : parseGroups (splitOnChar ':' s) with
    | none => rw [hg] at hp; simp at hp
    | some v =>
      rw [hg] at hp
      simp only at hp
      split_ifs at hp with hlen
      by_contra hno
      rw [splitOnChar_no_sep hno] at hg
      have : v.length ≤ 2 := parseLastGroup_short (by simpa [parseGroups] using hg)
      omega

theorem parseIPv6_v4_disjoint {s : JsString} {h : List Nat}
    (hp : parseIPv6Hextets s = some h) : parseIPv4 s = none := by
  cases hq : parseIPv4 s with
  | none => rfl
  | some q => exact absurd (parseIPv6_has_colon hp) (parseIPv4_no_colon hq)


theorem natToDecDigit_toNat {d : Nat} (h : d < 10) :
    (natToDecDigit d).toNat = '0'.toNat + d := by
  unfold natToDecDigit
  have h0 : ('0' : Char).toNat = 48 := by decide
  exact toNat_ofNat_lt (by omega)

theorem isDigitChar_natToDecDigit {d : Nat} (h : d < 10) :
    isDigitChar (natToDecDigit d) = true := by
  unfold isDigitChar
  rw [decide_eq_true_iff]
  have h0 : ('0' : Char).toNat = 48 := by decide
  have h9 : ('9' : Char).toNat = 57 := by decide
  constructor
  · rw [char_le_iff_toNat, natToDecDigit_toNat h]
    omega
  · rw [char_le_iff_toNat, natToDecDigit_toNat h]
    omega

theorem digitVal_natToDecDigit {d : Nat} (h : d < 10) :
    digitVal (natToDecDigit d) = d := by
  unfold digitVal
  rw [natToDecDigit_toNat h]
  omega

theorem natToDec_all_digits (n : Nat) : ∀ c ∈ natToDec n, isDigitChar c = true := by
  induction n using Nat.strong_induction_on with
  | _ n ih =>
    rw [natToDec]
    split_ifs with h
    · intro c hc
      rw [List.mem_singleton] at hc
      subst hc
      exact isDigitChar_natToDecDigit h
    · intro c hc
      rcases List.mem_append.mp hc with h1 | h2
      · exact ih (n / 10) (by omega) c h1
      · rw [List.mem_singleton] at h2
        subst h2
        exact isDigitChar_natToDecDigit (by omega)

theorem natToDec_ne_nil (n : Nat) : natToDec n ≠ [] := by
  rw [natToDec]
  split_ifs with h
  · simp
  · simp

theorem decValue_append_digit (xs : JsString) (c : Char) :
    decValue (xs ++ [c]) = 10 * decValue xs + digitVal c := by
  unfold decValue
  rw [List.foldl_append]
  rfl

theorem decValue_natToDec (n : Nat) : decValue (natToDec n) = n := by
  induction n using Nat.strong_induction_on with
  | _ n ih =>
    rw [natToDec]
    split_ifs with h
    · unfold decValue
      simp [digitVal_natToDecDigit h]
    · rw [decValue_append_digit, ih (n / 10) (by omega),
        digitVal_natToDecDigit (by omega)]
      omega

theorem jsNumberNat_natToDec (n : Nat) : jsNumberNat (natToDec n) = some n := by
  unfold jsNumberNat
  rw [if_neg (natToDec_ne_nil n),
    if_pos (List.all_eq_true.mpr (natToDec_all_digits n)), decValue_natToDec]

theorem natToDec_no_dot (n : Nat) : '.' ∉ natToDec n := by
  intro h
  have := natToDec_all_digits n '.' h
  simp [isDigitChar] at this

theorem splitOnChar_append_sep {sep : Char} {x : JsString} (y : JsString)
    (h : sep ∉ x) : splitOnChar sep (x ++ sep :: y) = x :: splitOnChar sep y := by
  induction x with
  | nil => simp [splitOnChar]
  | cons c t ih =>
    have hc : c ≠ sep := fun he => h (he ▸ List.mem_cons_self c t)
    show splitOnChar sep (c :: (t ++ sep :: y)) = (c :: t) :: splitOnChar sep y
    conv_lhs => rw [splitOnChar]
    rw [if_neg hc, ih (fun hm => h (List.mem_cons_of_mem c hm))]

theorem splitOnChar_renderIPv4 (a b c d : Nat) :
    splitOnChar '.' (renderIPv4 a b c d) =
      [natToDec a, natToDec b, natToDec c, natToDec d] := by
  unfold renderIPv4
  have hre : natToDec a ++ ('.' :: natToDec b) ++ ('.' :: natToDec c) ++
      ('.' :: natToDec d) =
      natToDec a ++ '.' :: (natToDec b ++ '.' :: (natToDec c ++ '.' :: natToDec d)) := by
    simp
  rw [hre, splitOnChar_append_sep _ (natToDec_no_dot a),
    splitOnChar_append_sep _ (natToDec_no_dot b),
    splitOnChar_append_sep _ (natToDec_no_dot c),
    splitOnChar_no_sep (natToDec_no_dot d)]

theorem isPrivateIPv4_render (a b c d : Nat) :
    (isPrivateIPv4 (renderIPv4 a b c d) = true ↔ V4InClaimRanges a b) :=
  isPrivateIPv4_of_octets (jsNumberNat_natToDec a) (jsNumberNat_natToDec b)
    (jsNumberNat_natToDec c) (jsNumberNat_natToDec d) (splitOnChar_renderIPv4 a b c d)


theorem list_len8 {h : List Nat} (hl : h.length = 8) :
    ∃ a0 a1 a2 a3 a4 a5 a6 a7, h = [a0, a1, a2, a3, a4, a5, a6, a7] := by
  rcases h with _ | ⟨a0, _ | ⟨a1, _ | ⟨a2, _ | ⟨a3, _ | ⟨a4, _ | ⟨a5, _ | ⟨a6, _ | ⟨a7, t⟩⟩⟩⟩⟩⟩⟩⟩ <;>
    simp_all

/-- The range list of the claim for IPv6: unspecified `::`, loopback `::1`,
`fc00::/7`, `fe80::/10`, and IPv4-mapped addresses whose embedded IPv4 is in
the claim's IPv4 range list. -/
def V6InClaimRanges (h : List Nat) : Prop :=
  h = [0, 0, 0, 0, 0, 0, 0, 0] ∨ h = [0, 0, 0, 0, 0, 0, 0, 1] ∨
    (64512 ≤ h.getD 0 0 ∧ h.getD 0 0 ≤ 65023) ∨
    (65152 ≤ h.getD 0 0 ∧ h.getD 0 0 ≤ 65215) ∨
    (∃ a b c d, a < 256 ∧ b < 256 ∧ c < 256 ∧ d < 256 ∧
      h = [0, 0, 0, 0, 0, 65535, 256 * a + b, 256 * c + d] ∧ V4InClaimRanges a b)

theorem isPrivateIPv6_char {s : JsString} {h : List Nat}
    (hp : parseIPv6Hextets s = some h) :
    (isPrivateIPv6 s = true ↔ V6InClaimRanges h) := by
  obtain ⟨hlen, hbnd⟩ := parseIPv6Hextets_len_bounds hp
  obtain ⟨a0, a1, a2, a3, a4, a5, a6, a7, rfl⟩ := list_len8 hlen
  have b0 : a0 < 65536 := hbnd a0 (by simp)
  have b6 : a6 < 65536 := hbnd a6 (by simp)
  have b7 : a7 < 65536 := hbnd a7 (by simp)
  have hstep : isPrivateIPv6 s = true ↔
      ((a0 = 0 ∧ a1 = 0 ∧ a2 = 0 ∧ a3 = 0 ∧ a4 = 0 ∧ a5 = 0 ∧ a6 = 0 ∧ a7 = 0) ∨
        (a0 = 0 ∧ a1 = 0 ∧ a2 = 0 ∧ a3 = 0 ∧ a4 = 0 ∧ a5 = 0 ∧ a6 = 0 ∧ a7 = 1) ∨
        (64512 ≤ a0 ∧ a0 ≤ 65023) ∨ (65152 ≤ a0 ∧ a0 ≤ 65215) ∨
        ((a0 = 0 ∧ a1 = 0 ∧ a2 = 0 ∧ a3 = 0 ∧ a4 = 0 ∧ a5 = 65535) ∧
          V4InClaimRanges (a6 / 256) (a6 % 256))) := by
    unfold isPrivateIPv6
    rw [hp]
    have hz : (([a0, a1, a2, a3, a4, a5, a6, a7] : List Nat).all fun value =>
        value = 0) = true ↔
        (a0 = 0 ∧ a1 = 0 ∧ a2 = 0 ∧ a3 = 0 ∧ a4 = 0 ∧ a5 = 0 ∧ a6 = 0 ∧ a7 = 0) := by
      simp [List.all_cons, and_assoc]
    have htk : (([a0, a1, a2, a3, a4, a5, a6, a7] : List Nat).take 7) =
        [a0, a1, a2, a3, a4, a5, a6] := rfl
    have hg7 : (([a0, a1, a2, a3, a4, a5, a6, a7] : List Nat).getD 7 0) = a7 := rfl
    have hg0 : (([a0, a1, a2, a3, a4, a5, a6, a7] : List Nat).getD 0 0) = a0 := rfl
    simp only [htk, hg7, hg0]
    rw [land_65024 a0 b0, land_65472 a0 b0]
    have hext : extractIPv4Mapped [a0, a1, a2, a3, a4, a5, a6, a7] =
        (if a0 = 0 ∧ a1 = 0 ∧ a2 = 0 ∧ a3 = 0 ∧ a4 = 0 ∧ a5 = 65535 then
          some (renderIPv4 (a6 / 256) (a6 % 256) (a7 / 256) (a7 % 256)) else none) :=
      rfl
    rw [hext]
    by_cases hc1 : (([a0, a1, a2, a3, a4, a5, a6] : List Nat).all fun value =>
        value = 0) && (a7 = 1 : Bool)
    all_goals by_cases hc0 : (([a0, a1, a2, a3, a4, a5, a6, a7] : List Nat).all
        fun value => value = 0)
    all_goals simp only [hc1, hc0, Bool.true_or, Bool.or_true, Bool.false_or,
      Bool.or_false, if_true, if_false]
    all_goals try rw [Bool.and_eq_true] at hc1
    all_goals simp only [List.all_cons, List.all_nil, Bool.and_eq_true,
      decide_eq_true_eq, Bool.and_true] at hc1 hc0
    · constructor
      · intro _
        exact Or.inl hc0
      · intro _
        trivial
    · constructor
      · intro _
        obtain ⟨⟨z0, z1, z2, z3, z4, z5, z6⟩, z7⟩ := hc1
        exact Or.inr (Or.inl ⟨z0, z1, z2, z3, z4, z5, z6, z7⟩)
      · intro _
        trivial
    · constructor
      · intro _
        exact Or.inl hc0
      · intro _
        trivial
    · -- neither all-zero nor loopback
      rw [if_neg (show ¬(false = true) by simp)]
      split_ifs with g1 g2 g3
      · simp only [true_iff]
        omega
      · simp only [true_iff]
        omega
      · rw [isPrivateIPv4_render]
        constructor
        · intro hv
          exact Or.inr (Or.inr (Or.inr (Or.inr ⟨g3, hv⟩)))
        · intro hv
          rcases hv with h0 | h1 | hm1 | hm2 | ⟨hshape, hv4⟩
          · exact absurd h0 hc0
          · exact absurd ⟨⟨h1.1, h1.2.1, h1.2.2.1, h1.2.2.2.1, h1.2.2.2.2.1,
              h1.2.2.2.2.2.1, h1.2.2.2.2.2.2.1⟩, h1.2.2.2.2.2.2.2⟩ hc1
          · exact absurd (show 512 * (a0 / 512) = 64512 by omega) g1
          · exact absurd (show 64 * (a0 / 64) = 65152 by omega) g2
          · exact hv4
      · constructor
        · intro hf
          exact hf.elim
        · intro hv
          rcases hv with h0 | h1 | hm1 | hm2 | ⟨hshape, hv4⟩
          · exact absurd h0 hc0
          · exact absurd ⟨⟨h1.1, h1.2.1, h1.2.2.1, h1.2.2.2.1, h1.2.2.2.2.1,
              h1.2.2.2.2.2.1, h1.2.2.2.2.2.2.1⟩, h1.2.2.2.2.2.2.2⟩ hc1
          · exact absurd (show 512 * (a0 / 512) = 64512 by omega) g1
          · exact absurd (show 64 * (a0 / 64) = 65152 by omega) g2
          · exact absurd hshape g3
  rw [hstep]
  unfold V6InClaimRanges
  have hg0 : (([a0, a1, a2, a3, a4, a5, a6, a7] : List Nat).getD 0 0) = a0 := rfl
  rw [hg0]
  constructor
  · intro hv
    rcases hv with h0 | h1 | hm1 | hm2 | ⟨hsh, hv4⟩
    · exact Or.inl (by simp [h0.1, h0.2.1, h0.2.2.1, h0.2.2.2.1, h0.2.2.2.2.1,
        h0.2.2.2.2.2.1, h0.2.2.2.2.2.2.1, h0.2.2.2.2.2.2.2])
    · exact Or.inr (Or.inl (by simp [h1.1, h1.2.1, h1.2.2.1, h1.2.2.2.1,
        h1.2.2.2.2.1, h1.2.2.2.2.2.1, h1.2.2.2.2.2.2.1, h1.2.2.2.2.2.2.2]))
    · exact Or.inr (Or.inr (Or.inl hm1))
    · exact Or.inr (Or.inr (Or.inr (Or.inl hm2)))
    · refine Or.inr (Or.inr (Or.inr (Or.inr
        ⟨a6 / 256, a6 % 256, a7 / 256, a7 % 256, by omega, by omega, by omega,
          by omega, ?_, hv4⟩)))
      obtain ⟨z0, z1, z2, z3, z4, z5⟩ := hsh
      simp only [z0, z1, z2, z3, z4, z5]
      have e6 : 256 * (a6 / 256) + a6 % 256 = a6 := by omega
      have e7 : 256 * (a7 / 256) + a7 % 256 = a7 := by omega
      rw [e6, e7]
  · intro hv
    rcases hv with h0 | h1 | hm1 | hm2 | ⟨a, b, c, d, hba, hbb, hbc, hbd, hsh, hv4⟩
    · simp only [List.cons.injEq] at h0
      exact Or.inl ⟨h0.1, h0.2.1, h0.2.2.1, h0.2.2.2.1, h0.2.2.2.2.1,
        h0.2.2.2.2.2.1, h0.2.2.2.2.2.2.1, h0.2.2.2.2.2.2.2.1⟩
    · simp only [List.cons.injEq] at h1
      exact Or.inr (Or.inl ⟨h1.1, h1.2.1, h1.2.2.1, h1.2.2.2.1, h1.2.2.2.2.1,
        h1.2.2.2.2.2.1, h1.2.2.2.2.2.2.1, h1.2.2.2.2.2.2.2.1⟩)
    · exact Or.inr (Or.inr (Or.inl hm1))
    · exact Or.inr (Or.inr (Or.inr (Or.inl hm2)))
    · simp only [List.cons.injEq] at hsh
      obtain ⟨z0, z1, z2, z3, z4, z5, z6, z7, _⟩ := hsh
      refine Or.inr (Or.inr (Or.inr (Or.inr ⟨⟨z0, z1, z2, z3, z4, z5⟩, ?_⟩)))
      have ha : a6 / 256 = a := by omega
      have hb : a6 % 256 = b := by omega
      rw [ha, hb]
      exact hv4


/-- C3: with `blockInternalRanges` left at its default (true), an empty
allowlist and no custom hook, the admission check returns `false` exactly
for the textual IPv4 addresses in `0/8, 10/8, 127/8, 169.254/16, 172.16/12,
192.168/16, 100.64/10, 255/8` and the textual IPv6 addresses that are `::`,
`::1`, in `fc00::/7` or `fe80::/10`, or IPv4-mapped with an embedded IPv4 in
those ranges — and returns `true` (does not reject) outside them. -/
theorem claim_C3_internal_ranges :
    (∀ s a b c d hostname, parseIPv4 s = some (a, b, c, d) →
      (isIpAllowedHook true [] none ⟨hostname, s⟩ = false ↔ V4InClaimRanges a b)) ∧
    (∀ s h hostname, parseIPv6Hextets s = some h →
      (isIpAllowedHook true [] none ⟨hostname, s⟩ = false ↔ V6InClaimRanges h)) := by
  have hook : ∀ hostname s,
      isIpAllowedHook true [] none ⟨hostname, s⟩ = ! isInternalAddress s := by
    intro hostname s
    unfold isIpAllowedHook
    cases hb : isInternalAddress s <;> simp
  constructor
  · intro s a b c d hostname hp
    rw [hook]
    have h4 : netIsIP s = 4 := by simp [netIsIP, hp]
    have hint : isInternalAddress s = isPrivateIPv4 s := by
      simp [isInternalAddress, h4]
    obtain ⟨p0, p1, p2, p3, hsp, j0, j1, j2, j3, _⟩ := parseIPv4_elim hp
    have hchar := isPrivateIPv4_of_octets j0 j1 j2 j3 hsp
    rw [hint, ← hchar]
    cases hpr : isPrivateIPv4 s <;> simp
  · intro s h hostname hp
    rw [hook]
    have h4 : parseIPv4 s = none := parseIPv6_v4_disjoint hp
    have h6 : netIsIP s = 6 := by simp [netIsIP, h4, hp]
    have hint : isInternalAddress s = isPrivateIPv6 s := by
      simp [isInternalAddress, h6]
    have hchar := isPrivateIPv6_char hp
    rw [hint, ← hchar]
    cases hpr : isPrivateIPv6 s <;> simp

/-- Concrete instances of C3: `10.0.0.1` and `fe80::1` are rejected, the
public `8.8.8.8` is not. -/
theorem claim_C3_witness :
    isIpAllowedHook true [] none ⟨[], ("10.0.0.1").toList⟩ = false ∧
    isIpAllowedHook true [] none ⟨[], ("fe80::1").toList⟩ = false ∧
    isIpAllowedHook true [] none ⟨[], ("8.8.8.8").toList⟩ = true := by
  refine ⟨?_, ?_, ?_⟩
  · exact (claim_C3_internal_ranges.1 _ 10 0 0 1 [] (by decide)).mpr
      (by unfold V4InClaimRanges; omega)
  · refine (claim_C3_internal_ranges.2 _ [65152, 0, 0, 0, 0, 0, 0, 1] []
      (by decide)).mpr ?_
    refine Or.inr (Or.inr (Or.inr (Or.inl ⟨?_, ?_⟩))) <;> norm_num [List.getD]
  · have h := claim_C3_internal_ranges.1 (("8.8.8.8").toList) 8 8 8 8 [] (by decide)
    cases hc : isIpAllowedHook true [] none ⟨[], ("8.8.8.8").toList⟩ with
    | true => rfl
    | false => exact absurd (h.mp hc) (by unfold V4InClaimRanges; omega)


/-! ### Claim C1 -/

/-- Claim-side predicate: the secret's (non-empty) value appears literally in
some header value, or in the base64-decoded credentials of an
`Authorization`/`Proxy-Authorization` header carrying the `Basic` scheme. -/
def HeaderSmugglesValue (headers : List (JsString × JsString))
    (entry : SecretEntry) : Prop :=
  entry.value ≠ [] ∧ ∃ p ∈ headers, entry.value <:+: p.2 ∨
    (isAuthHeaderName p.1 = true ∧ ∃ d, decodeBasicAuth p.2 = some d ∧ entry.value <:+: d)

/-- Claim-side predicate: the secret's (non-empty) value appears in a decoded
query parameter name or value of the request URL. -/
def QuerySmugglesValue (url : JsString) (entry : SecretEntry) : Prop :=
  entry.value ≠ [] ∧ ∃ u, parseUrl url = some u ∧ searchTruthy u = true ∧
    ∃ p ∈ parseQueryParams (u.search.getD []),
      entry.value <:+: p.1 ∨ entry.value <:+: p.2

theorem decodeBasicAuth_nil : decodeBasicAuth [] = none := rfl

theorem requestContainsSecretValueInHeaders_iff
    (headers : List (JsString × JsString)) (entry : SecretEntry) :
    requestContainsSecretValueInHeaders headers entry = true ↔
      HeaderSmugglesValue headers entry := by
  unfold requestContainsSecretValueInHeaders HeaderSmugglesValue
  by_cases hv : entry.value = []
  · rw [if_pos hv]
    simp [hv]
  · rw [if_neg hv]
    rw [List.any_eq_true]
    constructor
    · rintro ⟨p, hp, hbody⟩
      refine ⟨hv, p, hp, ?_⟩
      by_cases h2 : p.2 = []
      · rw [if_pos h2] at hbody
        exact absurd hbody (by simp)
      · rw [if_neg h2] at hbody
        by_cases hinc : jsIncludes p.2 entry.value = true
        · exact Or.inl (decide_eq_true_iff.mp hinc)
        · rw [if_neg hinc] at hbody
          by_cases hauth : isAuthHeaderName p.1 = true
          · rw [if_pos hauth] at hbody
            cases hd : decodeBasicAuth p.2 with
            | none => rw [hd] at hbody; exact absurd hbody (by simp)
            | some d =>
              rw [hd] at hbody
              rw [Bool.and_eq_true] at hbody
              exact Or.inr ⟨hauth, d, rfl, decide_eq_true_iff.mp hbody.2⟩
          · rw [if_neg hauth] at hbody
            exact absurd hbody (by simp)
    · rintro ⟨_, p, hp, hcond⟩
      refine ⟨p, hp, ?_⟩
      rcases hcond with hinf | ⟨hauth, d, hd, hinf⟩
      · have h2 : p.2 ≠ [] := by
          intro h2
          rw [h2] at hinf
          exact hv (List.eq_nil_of_infix_nil hinf)
        rw [if_neg h2, if_pos (by exact decide_eq_true_iff.mpr hinf)]
      · have h2 : p.2 ≠ [] := by
          intro h2
          rw [h2, decodeBasicAuth_nil] at hd
          cases hd
        rw [if_neg h2]
        by_cases hinc : jsIncludes p.2 entry.value = true
        · rw [if_pos hinc]
        · rw [if_neg hinc, if_pos hauth, hd]
          have hdn : d ≠ [] := by
            intro hdn
            rw [hdn] at hinf
            exact hv (List.eq_nil_of_infix_nil hinf)
          rw [Bool.and_eq_true]
          exact ⟨decide_eq_true_iff.mpr hdn, decide_eq_true_iff.mpr hinf⟩

theorem requestContainsSecretValueInQuery_iff (url : JsString) (entry : SecretEntry) :
    requestContainsSecretValueInQuery url entry = true ↔
      QuerySmugglesValue url entry := by
  unfold requestContainsSecretValueInQuery QuerySmugglesValue
  by_cases hv : entry.value = []
  · rw [if_pos hv]
    simp [hv]
  · rw [if_neg hv]
    cases hu : parseUrl url with
    | none =>
      simp only [hu]
      constructor
      · intro hfalse
        exact absurd hfalse (by simp)
      · rintro ⟨_, u, hsome, _⟩
        cases hsome
    | some parsed =>
      simp only [hu]
      by_cases hst : searchTruthy parsed = true
      · rw [if_neg (by simp [hst])]
        rw [List.any_eq_true]
        constructor
        · rintro ⟨p, hp, hbody⟩
          rw [Bool.or_eq_true] at hbody
          refine ⟨hv, parsed, rfl, hst, p, hp, ?_⟩
          rcases hbody with h1 | h1
          · exact Or.inl (decide_eq_true_iff.mp h1)
          · exact Or.inr (decide_eq_true_iff.mp h1)
        · rintro ⟨_, u, hsome, _, p, hp, hcond⟩
          injection hsome with hsome
          subst hsome
          refine ⟨p, hp, ?_⟩
          rw [Bool.or_eq_true]
          rcases hcond with h1 | h1
          · exact Or.inl (decide_eq_true_iff.mpr h1)
          · exact Or.inr (decide_eq_true_iff.mpr h1)
      · rw [if_pos (by simp [Bool.not_eq_true] at hst ⊢; exact hst)]
        constructor
        · intro hfalse
          exact absurd hfalse (by simp)
        · rintro ⟨_, u, hsome, hstu, _⟩
          injection hsome with hsome
          subst hsome
          exact absurd hstu hst

theorem assertSecretValuesGo_error_iff (request : HttpHookRequest)
    (hostname : JsString) (checkQuery : Bool) (entries : List SecretEntry) :
    (∃ e, assertSecretValuesGo request hostname checkQuery entries = .error e) ↔
    ∃ entry ∈ entries, matchesAnyHost hostname entry.hosts = false ∧
      (HeaderSmugglesValue request.headers entry ∨
        (checkQuery = true ∧ QuerySmugglesValue request.url entry)) := by
  induction entries with
  | nil => simp [assertSecretValuesGo]
  | cons entry rest ih =>
    unfold assertSecretValuesGo
    by_cases hm : matchesAnyHost hostname entry.hosts = true
    · rw [if_pos hm, ih]
      constructor
      · rintro ⟨e, hmem, hcond⟩
        exact ⟨e, List.mem_cons_of_mem _ hmem, hcond⟩
      · rintro ⟨e, hmem, hcond⟩
        rcases List.mem_cons.mp hmem with rfl | hmem2
        · rw [hm] at hcond
          exact absurd hcond.1 (by simp)
        · exact ⟨e, hmem2, hcond⟩
    · rw [if_neg hm]
      have hmf : matchesAnyHost hostname entry.hosts = false := by
        rwa [Bool.not_eq_true] at hm
      by_cases hh : requestContainsSecretValueInHeaders request.headers entry = true
      · rw [if_pos hh]
        constructor
        · intro _
          exact ⟨entry, List.mem_cons_self _ _, hmf,
            Or.inl ((requestContainsSecretValueInHeaders_iff _ _).mp hh)⟩
        · intro _
          exact ⟨.blocked (blockedMessage entry hostname), rfl⟩
      · rw [if_neg hh]
        by_cases hq : (checkQuery && requestContainsSecretValueInQuery request.url entry) = true
        · rw [if_pos hq]
          rw [Bool.and_eq_true] at hq
          constructor
          · intro _
            exact ⟨entry, List.mem_cons_self _ _, hmf,
              Or.inr ⟨hq.1, (requestContainsSecretValueInQuery_iff _ _).mp hq.2⟩⟩
          · intro _
            exact ⟨.blocked (blockedMessage entry hostname), rfl⟩
        · rw [if_neg hq, ih]
          constructor
          · rintro ⟨e, hmem, hcond⟩
            exact ⟨e, List.mem_cons_of_mem _ hmem, hcond⟩
          · rintro ⟨e, hmem, hcond⟩
            rcases List.mem_cons.mp hmem with rfl | hmem2
            · rcases hcond.2 with hc1 | ⟨hcq, hc2⟩
              · exact absurd ((requestContainsSecretValueInHeaders_iff _ _).mpr hc1) hh
              · refine absurd ?_ hq
                rw [Bool.and_eq_true]
                exact ⟨hcq, (requestContainsSecretValueInQuery_iff _ _).mpr hc2⟩
            · exact ⟨e, hmem2, hcond⟩

/-- C1 counterexample: a secret with the empty string as its value
"appears literally" in every header value, yet the defence does not fail
the request, so the claim as stated (without a non-emptiness condition on
the value) is false. -/
theorem claim_C1_counterexample :
    ([] : JsString) <:+: ("leak").toList ∧
    matchesAnyHost ("evil.test").toList ([] : List JsString) = false ∧
    assertSecretValuesAllowedForHost
      ⟨("GET").toList, ("http://evil.test/").toList,
        [(("x-leak").toList, ("leak").toList)]⟩
      ("evil.test").toList
      [⟨("T").toList, ("P").toList, [], []⟩] false = .ok () := by
  refine ⟨⟨[], ("leak").toList, rfl⟩, rfl, rfl⟩

/-- C1 (amended: the secret value must be non-empty — the code skips
empty-valued secrets, while the empty string trivially "appears" in every
header): the defence fails the request with an `HttpRequestBlockedError`
exactly when some secret whose host patterns do not match the target
hostname has its non-empty value occurring literally in a header value or
in the base64-decoded credentials of an `Authorization`/`Proxy-Authorization`
`Basic` header — or, with query scanning enabled, in a decoded query
parameter name or value; if no such occurrence exists, it raises nothing. -/
theorem claim_C1_secret_value_allowlist (request : HttpHookRequest)
    (hostname : JsString) (entries : List SecretEntry) (checkQuery : Bool) :
    (∃ e, assertSecretValuesAllowedForHost request hostname entries checkQuery =
      .error e) ↔
    ∃ entry ∈ entries, matchesAnyHost hostname entry.hosts = false ∧
      (HeaderSmugglesValue request.headers entry ∨
        (checkQuery = true ∧ QuerySmugglesValue request.url entry)) :=
  assertSecretValuesGo_error_iff request hostname checkQuery entries


/-! ### Claim C9 -/

theorem isJsWhitespace_eq_false_of_toNat {c : Char} (h1 : 33 ≤ c.toNat) :
    isJsWhitespace c = false := by
  unfold isJsWhitespace
  have hsp : c ≠ ' ' := fun he => by
    rw [he] at h1
    exact absurd h1 (by decide)
  have ht : c ≠ '\t' := fun he => by
    rw [he] at h1
    exact absurd h1 (by decide)
  have hn : c ≠ '\n' := fun he => by
    rw [he] at h1
    exact absurd h1 (by decide)
  have hr : c ≠ '\x0d' := fun he => by
    rw [he] at h1
    exact absurd h1 (by decide)
  have hb : c ≠ '\x0b' := fun he => by
    rw [he] at h1
    exact absurd h1 (by decide)
  have hf : c ≠ '\x0c' := fun he => by
    rw [he] at h1
    exact absurd h1 (by decide)
  simp [hsp, ht, hn, hr, hb, hf]

theorem isJsWhitespace_lcChar (c : Char) :
    isJsWhitespace (lcChar c) = isJsWhitespace c := by
  unfold lcChar
  split_ifs with h
  · have h1 : 65 ≤ c.toNat := by
      have := char_le_iff_toNat.mp h.1
      have hA : ('A' : Char).toNat = 65 := by decide
      omega
    have h2 : c.toNat ≤ 90 := by
      have := char_le_iff_toNat.mp h.2
      have hZ : ('Z' : Char).toNat = 90 := by decide
      omega
    have hofn : (Char.ofNat (c.toNat + 32)).toNat = c.toNat + 32 :=
      toNat_ofNat_lt (by omega)
    rw [isJsWhitespace_eq_false_of_toNat (by omega),
      isJsWhitespace_eq_false_of_toNat (by omega)]
  · rfl

theorem trim_lc_comm (s : JsString) :
    trimString (lcString s) = lcString (trimString s) := by
  unfold trimString lcString
  have hcomp : (fun c => isJsWhitespace (lcChar c)) = isJsWhitespace := by
    funext c
    exact isJsWhitespace_lcChar c
  rw [List.dropWhile_map, show (isJsWhitespace ∘ lcChar) = isJsWhitespace from hcomp]
  rw [← List.map_reverse, List.dropWhile_map,
    show (isJsWhitespace ∘ lcChar) = isJsWhitespace from hcomp, ← List.map_reverse]

theorem dropWhile_head_false {p : Char → Bool} :
    ∀ (l : JsString) {c : Char} {t : JsString}, l.dropWhile p = c :: t → p c = false := by
  intro l
  induction l with
  | nil => intro c t h; simp at h
  | cons a rest ih =>
    intro c t h
    rw [List.dropWhile_cons] at h
    split_ifs at h with ha
    · exact ih h
    · injection h with h1 h2
      subst h1
      rwa [Bool.not_eq_true] at ha

theorem dropWhile_eq_self_of_head {p : Char → Bool} {l : JsString}
    (h : ∀ c t, l = c :: t → p c = false) : l.dropWhile p = l := by
  cases l with
  | nil => rfl
  | cons c t =>
    rw [List.dropWhile_cons, if_neg (by rw [h c t rfl]; simp)]

theorem trim_idem (s : JsString) : trimString (trimString s) = trimString s := by
  unfold trimString
  set y := s.dropWhile isJsWhitespace with hy
  set t := (y.reverse.dropWhile isJsWhitespace).reverse with ht
  have htpre : t <+: y := by
    have h1 : y.reverse.dropWhile isJsWhitespace <:+ y.reverse :=
      List.dropWhile_suffix _
    have h2 := List.reverse_prefix.mpr h1
    rwa [List.reverse_reverse] at h2
  have hdrop1 : t.dropWhile isJsWhitespace = t := by
    apply dropWhile_eq_self_of_head
    intro c ct hct
    obtain ⟨u, hu⟩ := htpre
    rw [hct] at hu
    cases hy2 : y with
    | nil =>
      rw [hy2] at hu
      simp at hu
    | cons yc yt =>
      rw [hy2] at hu
      injection hu with hu1 hu2
      subst hu1
      exact dropWhile_head_false s (hy ▸ hy2)
  rw [hdrop1]
  have hdrop2 : t.reverse.dropWhile isJsWhitespace = t.reverse := by
    apply dropWhile_eq_self_of_head
    intro c ct hct
    rw [ht, List.reverse_reverse] at hct
    exact dropWhile_head_false y.reverse hct
  rw [hdrop2, List.reverse_reverse]

theorem normalizeHostnamePattern_idem (p : JsString) :
    normalizeHostnamePattern (normalizeHostnamePattern p) =
      normalizeHostnamePattern p := by
  unfold normalizeHostnamePattern
  rw [trim_lc_comm, lcString_idem, trim_idem]

/-- Claim-side first-occurrence deduplication. -/
def dedupKeepFirst : List JsString → List JsString
  | [] => []
  | x :: rest => x :: dedupKeepFirst (rest.filter fun y => y ≠ x)
termination_by l => l.length
decreasing_by
  exact Nat.lt_succ_of_le (List.length_filter_le _ _)

theorem mem_dedupKeepFirst_aux {a : JsString} :
    ∀ (n : Nat) (l : List JsString), l.length ≤ n →
      (a ∈ dedupKeepFirst l ↔ a ∈ l) := by
  intro n
  induction n with
  | zero =>
    intro l hl
    have hnil : l = [] := List.eq_nil_of_length_eq_zero (by omega)
    subst hnil
    simp [dedupKeepFirst]
  | succ n ih =>
    intro l hl
    cases l with
    | nil => simp [dedupKeepFirst]
    | cons x rest =>
      rw [dedupKeepFirst]
      have hlen : rest.length ≤ n := by
        simp only [List.length_cons] at hl
        omega
      have hlt : (rest.filter fun y => y ≠ x).length ≤ n :=
        le_trans (List.length_filter_le _ _) hlen
      rw [List.mem_cons, ih _ hlt, List.mem_cons]
      by_cases hax : a = x
      · simp [hax]
      · simp only [hax, false_or]
        rw [List.mem_filter]
        simp [hax]

theorem mem_dedupKeepFirst {a : JsString} {l : List JsString} :
    a ∈ dedupKeepFirst l ↔ a ∈ l :=
  mem_dedupKeepFirst_aux l.length l le_rfl

theorem uniqueHostsGo_eq (xs : List JsString) : ∀ seen,
    uniqueHostsGo seen xs = dedupKeepFirst
      ((xs.map normalizeHostnamePattern).filter
        fun h => decide (h ≠ []) && ! seen.contains h) := by
  induction xs with
  | nil =>
    intro seen
    simp [uniqueHostsGo, dedupKeepFirst]
  | cons x rest ih =>
    intro seen
    unfold uniqueHostsGo
    simp only [List.map_cons, List.filter_cons]
    by_cases hskip : normalizeHostnamePattern x = [] ∨ normalizeHostnamePattern x ∈ seen
    · rw [if_pos hskip]
      have hcond : (decide (normalizeHostnamePattern x ≠ []) &&
          ! seen.contains (normalizeHostnamePattern x)) = false := by
        rcases hskip with h1 | h1
        · simp [h1]
        · simp [List.elem_eq_mem, h1]
      rw [hcond]
      simp only [Bool.false_eq_true, if_false]
      exact ih seen
    · rw [if_neg hskip]
      push_neg at hskip
      have hcond : (decide (normalizeHostnamePattern x ≠ []) &&
          ! seen.contains (normalizeHostnamePattern x)) = true := by
        simp [List.elem_eq_mem, hskip.1, hskip.2]
      rw [hcond]
      simp only [if_true]
      rw [dedupKeepFirst, ih (normalizeHostnamePattern x :: seen)]
      have hfeq : (List.map normalizeHostnamePattern rest).filter
          (fun h => decide (h ≠ []) &&
            ! (normalizeHostnamePattern x :: seen).contains h) =
          ((List.map normalizeHostnamePattern rest).filter
            (fun h => decide (h ≠ []) && ! seen.contains h)).filter
            (fun y => y ≠ normalizeHostnamePattern x) := by
        rw [List.filter_filter]
        apply List.filter_congr
        intro h _
        simp only [List.contains_cons]
        by_cases h1 : h = normalizeHostnamePattern x <;> by_cases h2 : h = [] <;>
          by_cases h3 : h ∈ seen <;>
          simp [h1, h2, h3, List.elem_eq_mem]
      rw [hfeq]

theorem uniqueHosts_eq (xs : List JsString) :
    uniqueHosts xs = dedupKeepFirst
      ((xs.map normalizeHostnamePattern).filter fun h => h ≠ []) := by
  unfold uniqueHosts
  rw [uniqueHostsGo_eq]
  congr 1
  apply List.filter_congr
  intro h _
  simp

theorem mem_uniqueHosts_of_mem {xs : List JsString} {p : JsString} (hmem : p ∈ xs)
    (hfix : normalizeHostnamePattern p = p) (hne : p ≠ []) : p ∈ uniqueHosts xs := by
  rw [uniqueHosts_eq, mem_dedupKeepFirst, List.mem_filter]
  refine ⟨List.mem_map.mpr ⟨p, hmem, hfix⟩, by simp [hne]⟩

theorem matchHostname_nil_pattern (hostname : JsString) :
    matchHostname hostname [] = false := rfl

/-- C9 counterexample: with a caller allowlist containing the empty pattern,
the returned list is empty, not the one-element trimmed/lowercased union the
claim describes — empty patterns are dropped. -/
theorem claim_C9_counterexample :
    resolvedAllowedHosts ⟨[[]], [], false, true⟩ (fun _ => 0) = [] ∧
    dedupKeepFirst ((([([] : JsString)] ++
      (makeSecretEntries (fun _ => 0) []).flatMap fun e => e.hosts).map
        normalizeHostnamePattern)) = [[]] ∧
    ([] : List JsString) ≠ [[]] := by
  refine ⟨rfl, ?_, by simp⟩
  rw [show ((([([] : JsString)] ++
      (makeSecretEntries (fun _ => 0) []).flatMap fun e => e.hosts).map
        normalizeHostnamePattern)) = [[]] from rfl]
  rw [dedupKeepFirst]
  rw [show (([] : List JsString).filter fun y => y ≠ []) = [] from rfl]
  rw [dedupKeepFirst]

/-- C9 (amended: empty patterns — empty after trimming — are dropped from
the union): the returned `allowedHosts` is the duplicate-free (first
occurrence kept), trimmed, lowercased, empty-dropped union of the caller's
`allowedHosts` and every configured secret's host patterns; consequently any
hostname matching some secret's host patterns also passes the hostname half
of admission against the returned list. -/
theorem claim_C9_allowlist_union (options : CreateHttpHooksOptions)
    (rng : Nat → Nat) :
    resolvedAllowedHosts options rng = dedupKeepFirst
      (((options.allowedHosts ++
        (makeSecretEntries rng options.secrets).flatMap fun e => e.hosts).map
          normalizeHostnamePattern).filter fun h => h ≠ []) ∧
    (∀ hostname entry, entry ∈ makeSecretEntries rng options.secrets →
      matchesAnyHost hostname entry.hosts = true →
      matchesAnyHost hostname (resolvedAllowedHosts options rng) = true) := by
  constructor
  · exact uniqueHosts_eq _
  · intro hostname entry hentry hmatch
    unfold matchesAnyHost at hmatch
    rw [List.any_eq_true] at hmatch
    obtain ⟨p, hp, hpm⟩ := hmatch
    have hpne : p ≠ [] := by
      intro hpe
      rw [hpe, matchHostname_nil_pattern] at hpm
      cases hpm
    have hpfix : normalizeHostnamePattern p = p := by
      unfold makeSecretEntries at hentry
      obtain ⟨i, hi, heq⟩ := List.exists_of_mem_mapIdx hentry
      have hhosts : entry.hosts =
          (options.secrets[i].2.hosts).map normalizeHostnamePattern := by
        rw [← heq]
      rw [hhosts] at hp
      obtain ⟨q, _, hq⟩ := List.mem_map.mp hp
      rw [← hq, normalizeHostnamePattern_idem]
    unfold matchesAnyHost
    rw [List.any_eq_true]
    refine ⟨p, ?_, hpm⟩
    apply mem_uniqueHosts_of_mem _ hpfix hpne
    apply List.mem_append_right
    rw [List.mem_flatMap]
    exact ⟨entry, hentry, hp⟩


/-- Concrete instance of C9: a host pattern that appears only in a secret's
allowlist passes the hostname half of admission. -/
theorem claim_C9_witness :
    matchesAnyHost ("api.example.com").toList
      (resolvedAllowedHosts
        ⟨[], [(("T").toList, ⟨[("api.example.com").toList], ("v").toList⟩)],
          false, true⟩ (fun _ => 0)) = true :=
  (claim_C9_allowlist_union
    ⟨[], [(("T").toList, ⟨[("api.example.com").toList], ("v").toList⟩)],
      false, true⟩ (fun _ => 0)).2 ("api.example.com").toList
    ⟨("T").toList, placeholderFor (fun _ => 0) 0, ("v").toList,
      [("api.example.com").toList]⟩ (by decide) (by decide)

/-! ### Claim C7 -/

/-- Lowercase hexadecimal digit test. -/
def isLowerHexDigit (c : Char) : Bool :=
  isDigitChar c || decide ('a' ≤ c ∧ c ≤ 'f')

theorem natToHexDigit_isLowerHex {n : Nat} (h : n < 16) :
    isLowerHexDigit (natToHexDigit n) = true := by
  unfold natToHexDigit isLowerHexDigit isDigitChar
  have h0 : ('0' : Char).toNat = 48 := by decide
  have h9 : ('9' : Char).toNat = 57 := by decide
  have ha : ('a' : Char).toNat = 97 := by decide
  have hf : ('f' : Char).toNat = 102 := by decide
  split_ifs with h10
  · have hv : (Char.ofNat ('0'.toNat + n)).toNat = '0'.toNat + n :=
      toNat_ofNat_lt (by omega)
    rw [Bool.or_eq_true, decide_eq_true_iff, char_le_iff_toNat, char_le_iff_toNat]
    exact Or.inl (by omega)
  · have hv : (Char.ofNat ('a'.toNat + (n - 10))).toNat = 'a'.toNat + (n - 10) :=
      toNat_ofNat_lt (by omega)
    rw [Bool.or_eq_true, decide_eq_true_iff, decide_eq_true_iff,
      char_le_iff_toNat, char_le_iff_toNat, char_le_iff_toNat, char_le_iff_toNat]
    exact Or.inr ⟨by omega, by omega⟩

theorem byteToHex_wf (b : Nat) :
    (byteToHex b).length = 2 ∧ ∀ c ∈ byteToHex b, isLowerHexDigit c = true := by
  unfold byteToHex
  refine ⟨rfl, ?_⟩
  intro c hc
  rcases List.mem_cons.mp hc with rfl | hc2
  · exact natToHexDigit_isLowerHex (Nat.mod_lt _ (by norm_num))
  · rcases List.mem_cons.mp hc2 with rfl | hc3
    · exact natToHexDigit_isLowerHex (Nat.mod_lt _ (by norm_num))
    · simp at hc3

theorem bytesToHex_wf (bs : List Nat) :
    (bytesToHex bs).length = 2 * bs.length ∧
      ∀ c ∈ bytesToHex bs, isLowerHexDigit c = true := by
  induction bs with
  | nil => simp [bytesToHex]
  | cons b rest ih =>
    unfold bytesToHex at ih ⊢
    rw [List.flatMap_cons]
    constructor
    · rw [List.length_append, ih.1, (byteToHex_wf b).1, List.length_cons]
      ring
    · intro c hc
      rcases List.mem_append.mp hc with h1 | h2
      · exact (byteToHex_wf b).2 c h1
      · exact ih.2 c h2

theorem placeholderFor_spec (rng : Nat → Nat) (i : Nat) :
    ∃ hex, placeholderFor rng i = ("GONDOLIN_SECRET_").toList ++ hex ∧
      hex.length = 48 ∧ ∀ c ∈ hex, isLowerHexDigit c = true := by
  refine ⟨bytesToHex ((List.range 24).map fun j => rng (24 * i + j) % 256), rfl,
    ?_, (bytesToHex_wf _).2⟩
  rw [(bytesToHex_wf _).1, List.length_map, List.length_range]

/-- C7 counterexample: the claim's clause "no env value equals the secret's
real value" fails when the secret's value is itself the generated
placeholder string. -/
theorem claim_C7_counterexample :
    createEnv (fun _ => 0)
      [(("TOKEN").toList,
        ⟨[], ("GONDOLIN_SECRET_000000000000000000000000000000000000000000000000").toList⟩)] =
      [(("TOKEN").toList,
        ("GONDOLIN_SECRET_000000000000000000000000000000000000000000000000").toList)] := by
  decide

/-- C7 (amended: an env value can coincide with a secret value only when
that value itself starts with the `GONDOLIN_SECRET_` prefix): the env maps
the i-th secret name to `GONDOLIN_SECRET_` followed by the 48 lowercase hex
characters of 24 generated bytes, and an env value never equals the real
value of a secret whose value does not start with that prefix. -/
theorem claim_C7_env_placeholders (rng : Nat → Nat)
    (secrets : List (JsString × SecretDefinition)) :
    (createEnv rng secrets).length = secrets.length ∧
    (∀ i, (createEnv rng secrets)[i]? =
      (secrets[i]?).map fun p => (p.1, placeholderFor rng i)) ∧
    (∀ i, ∃ hex, placeholderFor rng i = ("GONDOLIN_SECRET_").toList ++ hex ∧
      hex.length = 48 ∧ ∀ c ∈ hex, isLowerHexDigit c = true) ∧
    (∀ p ∈ secrets, ∀ i, ¬ ("GONDOLIN_SECRET_").toList <+: p.2.value →
      placeholderFor rng i ≠ p.2.value) := by
  refine ⟨by simp [createEnv], ?_, placeholderFor_spec rng, ?_⟩
  · intro i
    unfold createEnv
    rw [List.getElem?_mapIdx]
  · intro p _ i hpre heq
    obtain ⟨hex, hph, _, _⟩ := placeholderFor_spec rng i
    exact hpre ⟨hex, by rw [← hph, heq]⟩

/-- Concrete instance of C7: the placeholder generated for a secret differs
from a value that does not carry the placeholder prefix. -/
theorem claim_C7_witness :
    placeholderFor (fun _ => 0) 0 ≠ ("hunter2").toList :=
  (claim_C7_env_placeholders (fun _ => 0)
    [(("TOKEN").toList, ⟨[], ("hunter2").toList⟩)]).2.2.2
    (("TOKEN").toList, ⟨[], ("hunter2").toList⟩) (by decide) 0 (by decide)


/-! ### Claim C2 -/

theorem splitOnSub_ne_nil (p s : JsString) : splitOnSub p s ≠ [] := by
  cases s with
  | nil => simp [splitOnSub]
  | cons c rest =>
    rw [splitOnSub]
    split
    · simp
    · cases hsp : splitOnSub p rest <;> simp

theorem infix_of_take {p s : JsString} (h : p <+: s) : p <:+: s := by
  obtain ⟨u, hu⟩ := h
  exact ⟨[], u, by simpa using hu⟩

theorem length_pos_of_ne_nil {p : JsString} (hp : p ≠ []) : 1 ≤ p.length := by
  cases p with
  | nil => exact absurd rfl hp
  | cons a t => simp

theorem joinSep_splitOnSub_aux {p : JsString} (hp : p ≠ []) :
    ∀ (n : Nat) (s : JsString), s.length ≤ n →
      joinSep p (splitOnSub p s) = s := by
  intro n
  induction n with
  | zero =>
    intro s hs
    have hnil : s = [] := List.eq_nil_of_length_eq_zero (by omega)
    subst hnil
    simp [splitOnSub, joinSep]
  | succ n ih =>
    intro s hs
    cases s with
    | nil => simp [splitOnSub, joinSep]
    | cons c rest =>
      rw [splitOnSub]
      by_cases hpre : p <+: (c :: rest)
      · rw [dif_pos ⟨hp, hpre⟩]
        obtain ⟨u, hu⟩ := hpre
        have hdrop : (c :: rest).drop p.length = u := by
          rw [← hu]
          exact List.drop_left p u
        rw [hdrop]
        have hplen : 1 ≤ p.length := length_pos_of_ne_nil hp
        have hulen : u.length ≤ n := by
          have hlen : (c :: rest).length = p.length + u.length := by
            rw [← hu]
            simp
          simp only [List.length_cons] at hlen hs
          omega
        cases hsp : splitOnSub p u with
        | nil => exact absurd hsp (splitOnSub_ne_nil p u)
        | cons piece more =>
          have hj : joinSep p ([] :: piece :: more) =
              [] ++ p ++ joinSep p (piece :: more) := rfl
          rw [hj, ← hsp, ih u hulen]
          simp [← hu]
      · rw [dif_neg (fun hcon => hpre hcon.2)]
        have hrest : joinSep p (splitOnSub p rest) = rest := by
          apply ih
          simp only [List.length_cons] at hs
          omega
        cases hsp : splitOnSub p rest with
        | nil => exact absurd hsp (splitOnSub_ne_nil p rest)
        | cons piece more =>
          rw [hsp] at hrest
          cases more with
          | nil =>
            show c :: piece = c :: rest
            have hpr : piece = rest := hrest
            rw [hpr]
          | cons q m2 =>
            show (c :: piece) ++ p ++ joinSep p (q :: m2) = c :: rest
            have hpr : piece ++ p ++ joinSep p (q :: m2) = rest := hrest
            rw [← hpr]
            simp

theorem joinSep_splitOnSub {p : JsString} (hp : p ≠ []) (s : JsString) :
    joinSep p (splitOnSub p s) = s :=
  joinSep_splitOnSub_aux hp s.length s le_rfl

theorem replaceAllGo_eq_joinSep_aux {p : JsString} (hp : p ≠ []) (v : JsString) :
    ∀ (n : Nat) (s : JsString), s.length ≤ n →
      replaceAllGo p v s = joinSep v (splitOnSub p s) := by
  intro n
  induction n with
  | zero =>
    intro s hs
    have hnil : s = [] := List.eq_nil_of_length_eq_zero (by omega)
    subst hnil
    simp [splitOnSub, replaceAllGo, joinSep]
  | succ n ih =>
    intro s hs
    cases s with
    | nil => simp [splitOnSub, replaceAllGo, joinSep]
    | cons c rest =>
      rw [splitOnSub, replaceAllGo]
      by_cases hpre : p <+: (c :: rest)
      · rw [dif_pos ⟨hp, hpre⟩, dif_pos ⟨hp, hpre⟩]
        obtain ⟨u, hu⟩ := hpre
        have hdrop : (c :: rest).drop p.length = u := by
          rw [← hu]
          exact List.drop_left p u
        rw [hdrop]
        have hplen : 1 ≤ p.length := length_pos_of_ne_nil hp
        have hulen : u.length ≤ n := by
          have hlen : (c :: rest).length = p.length + u.length := by
            rw [← hu]
            simp
          simp only [List.length_cons] at hlen hs
          omega
        cases hsp : splitOnSub p u with
        | nil => exact absurd hsp (splitOnSub_ne_nil p u)
        | cons piece more =>
          have hj : joinSep v ([] :: piece :: more) =
              [] ++ v ++ joinSep v (piece :: more) := rfl
          rw [hj, ← hsp, ih u hulen]
          simp
      · rw [dif_neg (fun hcon => hpre hcon.2), dif_neg (fun hcon => hpre hcon.2)]
        have hrest : replaceAllGo p v rest = joinSep v (splitOnSub p rest) := by
          apply ih
          simp only [List.length_cons] at hs
          omega
        cases hsp : splitOnSub p rest with
        | nil => exact absurd hsp (splitOnSub_ne_nil p rest)
        | cons piece more =>
          rw [hsp] at hrest
          cases more with
          | nil =>
            show c :: replaceAllGo p v rest = c :: piece
            rw [hrest]
            rfl
          | cons q m2 =>
            show c :: replaceAllGo p v rest = (c :: piece) ++ v ++ joinSep v (q :: m2)
            rw [hrest]
            rfl

theorem replaceAllGo_eq_joinSep {p : JsString} (hp : p ≠ []) (v s : JsString) :
    replaceAllGo p v s = joinSep v (splitOnSub p s) :=
  replaceAllGo_eq_joinSep_aux hp v s.length s le_rfl

theorem replaceAllGo_not_infix_aux {p v : JsString} :
    ∀ (n : Nat) (s : JsString), s.length ≤ n → ¬ p <:+: s →
      replaceAllGo p v s = s := by
  intro n
  induction n with
  | zero =>
    intro s hs _
    have hnil : s = [] := List.eq_nil_of_length_eq_zero (by omega)
    subst hnil
    simp [replaceAllGo]
  | succ n ih =>
    intro s hs hni
    cases s with
    | nil => simp [replaceAllGo]
    | cons c rest =>
      rw [replaceAllGo]
      rw [dif_neg (fun hcon => hni (infix_of_take hcon.2))]
      rw [ih rest (by simp only [List.length_cons] at hs; omega)
        (fun hcon => hni (List.infix_cons hcon))]

theorem replaceAllGo_not_infix {p v s : JsString} (h : ¬ p <:+: s) :
    replaceAllGo p v s = s :=
  replaceAllGo_not_infix_aux s.length s le_rfl h

theorem replaceAll_not_infix {p v s : JsString} (hp : p ≠ []) (h : ¬ p <:+: s) :
    replaceAll s p v = s := by
  unfold replaceAll
  rw [if_neg hp]
  exact replaceAllGo_not_infix h

theorem substString_single_match (e : SecretEntry) (hostname value : JsString)
    (hm : matchesAnyHost hostname e.hosts = true) :
    replaceSecretPlaceholdersInString value hostname [e] =
      .ok (replaceAll value e.placeholder e.value) := by
  unfold replaceSecretPlaceholdersInString replaceSecretPlaceholdersGo
  by_cases hinc : jsIncludes value e.placeholder = true
  · rw [if_neg (by simp [hinc])]
    unfold assertSecretAllowedForHost
    rw [if_pos hm]
    rfl
  · rw [if_pos (by simp [Bool.not_eq_true] at hinc ⊢; exact hinc)]
    have hni : ¬ e.placeholder <:+: value := by
      intro hcon
      exact hinc (decide_eq_true_iff.mpr hcon)
    have hpne : e.placeholder ≠ [] := by
      intro hcon
      rw [hcon] at hni
      exact hni ⟨[], value, rfl⟩
    rw [ replaceAll_not_infix hpne hni]
    rfl

theorem substString_single_nomatch (e : SecretEntry) (hostname value : JsString)
    (hm : matchesAnyHost hostname e.hosts = false) :
    (e.placeholder <:+: value →
      replaceSecretPlaceholdersInString value hostname [e] =
        .error (.blocked (blockedMessage e hostname))) ∧
    (¬ e.placeholder <:+: value →
      replaceSecretPlaceholdersInString value hostname [e] = .ok value) := by
  unfold replaceSecretPlaceholdersInString replaceSecretPlaceholdersGo
  constructor
  · intro hinf
    rw [if_neg (by simp [jsIncludes]; exact hinf)]
    unfold assertSecretAllowedForHost
    rw [if_neg (by simp [hm])]
  · intro hni
    rw [if_pos (by simp [jsIncludes]; exact hni)]
    rfl

theorem substString_no_placeholder (entries : List SecretEntry)
    (hostname value : JsString)
    (h : ∀ e ∈ entries, ¬ e.placeholder <:+: value) :
    replaceSecretPlaceholdersInString value hostname entries = .ok value := by
  unfold replaceSecretPlaceholdersInString
  induction entries with
  | nil => rfl
  | cons e rest ih =>
    unfold replaceSecretPlaceholdersGo
    rw [if_pos (by simp [jsIncludes]; exact h e (List.mem_cons_self e rest))]
    exact ih fun e2 he2 => h e2 (List.mem_cons_of_mem e he2)

theorem replaceBasicAuth_eq (headerName headerValue hostname : JsString)
    (entries : List SecretEntry)
    (scheme ws token trailing d2 : JsString)
    (hauth : isAuthHeaderName headerName = true)
    (hshape : matchBasicAuthShape headerValue = some (scheme, ws, token, trailing))
    (hsub : replaceSecretPlaceholdersInString (b64DecodeString token) hostname
      entries = .ok d2) :
    replaceBasicAuthSecretPlaceholders headerName headerValue hostname entries =
      .ok (if d2 = b64DecodeString token then headerValue
        else scheme ++ ws ++ b64EncodeString d2 ++ trailing) := by
  unfold replaceBasicAuthSecretPlaceholders
  rw [if_neg (by simp [hauth]), hshape]
  simp only [hsub]
  split_ifs with he
  · rfl
  · rfl

/-- C2: for a single secret and any header value, when the hostname matches
the secret's host patterns the substitution result replaces every
(greedy, non-overlapping, left-to-right) occurrence of the placeholder by
the real value — witnessed by the split/join decomposition of the input
along the placeholder; when the hostname matches none of the patterns, a
present placeholder fails the request with `HttpRequestBlockedError`, and
an absent one leaves the value unchanged; for `Authorization: Basic`
headers the substitution is applied to the base64-decoded credentials and
the result re-encoded between the unchanged scheme and whitespace. -/
theorem claim_C2_placeholder_substitution :
    (∀ (e : SecretEntry) (hostname value : JsString),
      matchesAnyHost hostname e.hosts = true →
      replaceSecretPlaceholdersInString value hostname [e] =
        .ok (replaceAll value e.placeholder e.value) ∧
      (e.placeholder ≠ [] →
        value = joinSep e.placeholder (splitOnSub e.placeholder value) ∧
        replaceAll value e.placeholder e.value =
          joinSep e.value (splitOnSub e.placeholder value))) ∧
    (∀ (e : SecretEntry) (hostname value : JsString),
      matchesAnyHost hostname e.hosts = false →
      (e.placeholder <:+: value →
        replaceSecretPlaceholdersInString value hostname [e] =
          .error (.blocked (blockedMessage e hostname))) ∧
      (¬ e.placeholder <:+: value →
        replaceSecretPlaceholdersInString value hostname [e] = .ok value)) ∧
    (∀ (e : SecretEntry) (headerName headerValue hostname : JsString)
      (scheme ws token trailing : JsString),
      isAuthHeaderName headerName = true →
      matchBasicAuthShape headerValue = some (scheme, ws, token, trailing) →
      matchesAnyHost hostname e.hosts = true →
      replaceBasicAuthSecretPlaceholders headerName headerValue hostname [e] =
        .ok (if replaceAll (b64DecodeString token) e.placeholder e.value =
            b64DecodeString token then headerValue
          else scheme ++ ws ++
            b64EncodeString (replaceAll (b64DecodeString token) e.placeholder e.value)
            ++ trailing)) := by
  refine ⟨?_, substString_single_nomatch, ?_⟩
  · intro e hostname value hm
    refine ⟨substString_single_match e hostname value hm, ?_⟩
    intro hpne
    exact ⟨(joinSep_splitOnSub hpne value).symm,
      by unfold replaceAll; rw [if_neg hpne]; exact replaceAllGo_eq_joinSep hpne _ _⟩
  · intro e headerName headerValue hostname scheme ws token trailing hauth hshape hm
    exact replaceBasicAuth_eq headerName headerValue hostname [e] scheme ws token
      trailing _ hauth hshape (substString_single_match e hostname _ hm)

/-- Concrete instance of C2: with the hostname allowed the placeholder is
substituted; with it disallowed and the placeholder present the request is
blocked. -/
theorem claim_C2_witness :
    replaceSecretPlaceholdersInString ("x PLACE y").toList ("api.test").toList
      [⟨("T").toList, ("PLACE").toList, ("secret").toList, [("api.test").toList]⟩] =
      .ok (replaceAll ("x PLACE y").toList ("PLACE").toList ("secret").toList) ∧
    replaceSecretPlaceholdersInString ("x PLACE y").toList ("evil.test").toList
      [⟨("T").toList, ("PLACE").toList, ("secret").toList, [("api.test").toList]⟩] =
      .error (.blocked (blockedMessage
        ⟨("T").toList, ("PLACE").toList, ("secret").toList, [("api.test").toList]⟩
        ("evil.test").toList)) :=
  ⟨(claim_C2_placeholder_substitution.1
      ⟨("T").toList, ("PLACE").toList, ("secret").toList, [("api.test").toList]⟩
      ("api.test").toList ("x PLACE y").toList (by decide)).1,
    (claim_C2_placeholder_substitution.2.1
      ⟨("T").toList, ("PLACE").toList, ("secret").toList, [("api.test").toList]⟩
      ("evil.test").toList ("x PLACE y").toList (by decide)).1 (by decide)⟩


/-! ### Claim C8 -/

theorem b64CharVal_valChar {v : Nat} (h : v < 64) :
    b64CharVal (b64ValChar v) = some v := by
  have hA : ('A' : Char).toNat = 65 := by decide
  have hZ : ('Z' : Char).toNat = 90 := by decide
  have ha : ('a' : Char).toNat = 97 := by decide
  have hz : ('z' : Char).toNat = 122 := by decide
  have h0 : ('0' : Char).toNat = 48 := by decide
  have h9 : ('9' : Char).toNat = 57 := by decide
  unfold b64ValChar
  by_cases h1 : v < 26
  · rw [if_pos h1]
    have hc : (Char.ofNat ('A'.toNat + v)).toNat = 'A'.toNat + v :=
      toNat_ofNat_lt (by omega)
    unfold b64CharVal
    rw [if_pos ⟨char_le_iff_toNat.mpr (by omega), char_le_iff_toNat.mpr (by omega)⟩]
    rw [hc]
    exact congrArg some (by omega)
  · rw [if_neg h1]
    by_cases h2 : v < 52
    · rw [if_pos h2]
      have hc : (Char.ofNat ('a'.toNat + (v - 26))).toNat = 'a'.toNat + (v - 26) :=
        toNat_ofNat_lt (by omega)
      unfold b64CharVal
      rw [if_neg (by
        intro hcon
        have := char_le_iff_toNat.mp hcon.2
        rw [hc, hZ] at this
        omega)]
      rw [if_pos ⟨char_le_iff_toNat.mpr (by omega), char_le_iff_toNat.mpr (by omega)⟩]
      rw [hc]
      exact congrArg some (by omega)
    · rw [if_neg h2]
      by_cases h3 : v < 62
      · rw [if_pos h3]
        have hc : (Char.ofNat ('0'.toNat + (v - 52))).toNat = '0'.toNat + (v - 52) :=
          toNat_ofNat_lt (by omega)
        unfold b64CharVal
        rw [if_neg (by
          intro hcon
          have := char_le_iff_toNat.mp hcon.1
          rw [hc, hA] at this
          omega)]
        rw [if_neg (by
          intro hcon
          have := char_le_iff_toNat.mp hcon.1
          rw [hc, ha] at this
          omega)]
        rw [if_pos ⟨char_le_iff_toNat.mpr (by omega), char_le_iff_toNat.mpr (by omega)⟩]
        rw [hc]
        exact congrArg some (by omega)
      · rw [if_neg h3]
        by_cases h4 : v = 62
        · rw [if_pos h4, h4]
          decide
        · rw [if_neg h4]
          have h5 : v = 63 := by omega
          rw [h5]
          decide

theorem b64_roundtrip : ∀ (bs : List Nat), (∀ b ∈ bs, b < 256) →
    b64DecodeBytes (b64EncodeBytes bs) = bs := by
  intro bs
  induction bs using b64EncodeBytes.induct with
  | case1 =>
    intro _
    rfl
  | case2 b0 =>
    intro hb
    have h0 : b0 < 256 := hb b0 (by simp)
    unfold b64EncodeBytes b64DecodeBytes
    rw [List.filterMap_cons, b64CharVal_valChar (by omega)]
    rw [List.filterMap_cons, b64CharVal_valChar (by omega)]
    rw [show ([('='), ('=')] : JsString).filterMap b64CharVal = [] from by decide]
    unfold b64DecodeVals
    congr 1
    omega
  | case3 b0 b1 =>
    intro hb
    have h0 : b0 < 256 := hb b0 (by simp)
    have h1 : b1 < 256 := hb b1 (by simp)
    unfold b64EncodeBytes b64DecodeBytes
    rw [List.filterMap_cons, b64CharVal_valChar (by omega)]
    rw [List.filterMap_cons, b64CharVal_valChar (by omega)]
    rw [List.filterMap_cons, b64CharVal_valChar (by omega)]
    rw [show ([('=')] : JsString).filterMap b64CharVal = [] from by decide]
    unfold b64DecodeVals
    congr 1
    · omega
    · congr 1
      omega
  | case4 b0 b1 b2 rest ih =>
    intro hb
    have h0 : b0 < 256 := hb b0 (by simp)
    have h1 : b1 < 256 := hb b1 (by simp)
    have h2 : b2 < 256 := hb b2 (by simp)
    have hrest : ∀ b ∈ rest, b < 256 := fun b hbm =>
      hb b (by simp [hbm])
    unfold b64EncodeBytes b64DecodeBytes
    rw [List.filterMap_append]
    rw [show ([b64ValChar (b0 / 4 % 64), b64ValChar (b0 % 4 * 16 + b1 / 16),
        b64ValChar (b1 % 16 * 4 + b2 / 64), b64ValChar (b2 % 64)] : JsString).filterMap
          b64CharVal =
        [b0 / 4 % 64, b0 % 4 * 16 + b1 / 16, b1 % 16 * 4 + b2 / 64, b2 % 64] from by
      rw [List.filterMap_cons, b64CharVal_valChar (by omega)]
      rw [List.filterMap_cons, b64CharVal_valChar (by omega)]
      rw [List.filterMap_cons, b64CharVal_valChar (by omega)]
      rw [List.filterMap_cons, b64CharVal_valChar (by omega)]
      rfl]
    have hstep : ∀ (a b c d : Nat) (t : List Nat),
        b64DecodeVals (a :: b :: c :: d :: t) =
          (a * 4 + b / 16) :: (b % 16 * 16 + c / 4) :: (c % 4 * 64 + d) ::
            b64DecodeVals t := fun _ _ _ _ _ => rfl
    simp only [List.cons_append, List.nil_append]
    rw [hstep]
    have hihr := ih hrest
    unfold b64DecodeBytes at hihr
    rw [hihr]
    congr 1
    · omega
    · congr 1
      · omega
      · congr 1
        omega

/-- C8 counterexample: decoding the non-canonically padded token `QQ` and
re-encoding it yields `QQ==`, not `QQ`, so base64 decode-then-encode of an
`Authorization: Basic` token is not the identity in general. -/
theorem claim_C8_counterexample :
    matchBasicAuthShape ("Basic QQ").toList =
      some (("Basic").toList, (" ").toList, ("QQ").toList, []) ∧
    b64EncodeString (b64DecodeString ("QQ").toList) ≠ ("QQ").toList := by
  exact ⟨by decide, by decide⟩

/-- C8 (amended: the identity holds in the encode-then-decode direction —
and therefore on canonically encoded tokens — not for every token): encoding
any byte sequence and decoding it back is the identity; the substitution
pass returns the header value byte-for-byte unchanged whenever no
placeholder occurs in the decoded credentials (the source returns early
without re-encoding); and when a substitution does occur the scheme word
and surrounding whitespace are preserved around the re-encoded token. -/
theorem claim_C8_basic_auth_roundtrip :
    (∀ bs : List Nat, (∀ b ∈ bs, b < 256) →
      b64DecodeBytes (b64EncodeBytes bs) = bs) ∧
    (∀ headerName headerValue hostname : JsString,
      ∀ entries : List SecretEntry,
      ∀ scheme ws token trailing : JsString,
      matchBasicAuthShape headerValue = some (scheme, ws, token, trailing) →
      (∀ e ∈ entries, ¬ e.placeholder <:+: b64DecodeString token) →
      replaceBasicAuthSecretPlaceholders headerName headerValue hostname entries =
        .ok headerValue) ∧
    (∀ headerName headerValue hostname : JsString,
      ∀ entries : List SecretEntry,
      ∀ scheme ws token trailing d2 : JsString,
      isAuthHeaderName headerName = true →
      matchBasicAuthShape headerValue = some (scheme, ws, token, trailing) →
      replaceSecretPlaceholdersInString (b64DecodeString token) hostname entries =
        .ok d2 →
      d2 ≠ b64DecodeString token →
      replaceBasicAuthSecretPlaceholders headerName headerValue hostname entries =
        .ok (scheme ++ ws ++ b64EncodeString d2 ++ trailing)) := by
  refine ⟨b64_roundtrip, ?_, ?_⟩
  · intro headerName headerValue hostname entries scheme ws token trailing hshape hno
    by_cases hauth : isAuthHeaderName headerName = true
    · have hsub := substString_no_placeholder entries hostname (b64DecodeString token) hno
      rw [replaceBasicAuth_eq headerName headerValue hostname entries scheme ws token
        trailing _ hauth hshape hsub]
      rw [if_pos rfl]
    · unfold replaceBasicAuthSecretPlaceholders
      rw [if_pos (by simp [Bool.not_eq_true] at hauth ⊢; exact hauth)]
  · intro headerName headerValue hostname entries scheme ws token trailing d2
      hauth hshape hsub hne
    rw [replaceBasicAuth_eq headerName headerValue hostname entries scheme ws token
      trailing d2 hauth hshape hsub]
    rw [if_neg hne]

/-- Concrete instance of C8: a `Basic` credential with no placeholder in the
decoded user-pass passes through unchanged, and encode-then-decode is the
identity on the decoded bytes. -/
theorem claim_C8_witness :
    b64DecodeBytes (b64EncodeBytes [117, 115, 101, 114]) = [117, 115, 101, 114] ∧
    replaceBasicAuthSecretPlaceholders ("authorization").toList
      ("Basic dXNlcjpwYXNz").toList ("api.test").toList
      [⟨("T").toList, ("PLACE").toList, ("secret").toList, [("api.test").toList]⟩] =
      .ok ("Basic dXNlcjpwYXNz").toList :=
  ⟨claim_C8_basic_auth_roundtrip.1 [117, 115, 101, 114] (by decide),
    claim_C8_basic_auth_roundtrip.2.1 ("authorization").toList
      ("Basic dXNlcjpwYXNz").toList ("api.test").toList
      [⟨("T").toList, ("PLACE").toList, ("secret").toList, [("api.test").toList]⟩]
      ("Basic").toList (" ").toList ("dXNlcjpwYXNz").toList [] (by decide)
      (by decide)⟩


/-! ### Claim C6 -/

theorem except_bind_ok {α β : Type} (a : α) (f : α → Except HttpError β) :
    (Except.ok a >>= f) = f a := rfl

theorem except_unit_ok_iff (r : Except HttpError Unit) :
    r = .ok () ↔ ¬ ∃ e, r = .error e := by
  cases r with
  | ok u =>
    cases u
    simp
  | error e =>
    simp

theorem claim_C6_helper_url_disabled (url hostname : JsString)
    (entries : List SecretEntry) :
    replaceSecretPlaceholdersInUrlParameters url hostname entries false = .ok url := by
  unfold replaceSecretPlaceholdersInUrlParameters
  rw [if_pos (Or.inl (by simp))]

/-- C6: with `replaceSecretsInQuery` false (its default), query-parameter
placeholder replacement never runs (the URL step returns the URL unchanged),
the value scan consults only the headers (a secret value present only in
the query string never fails the request), and the whole pass is the header
scan followed by header substitution with the URL untouched; with the flag
true, a query-only occurrence of a non-allowed secret's value fails the
request, and the query-parameter replacement pipeline runs. -/
theorem claim_C6_query_flag :
    (∀ url hostname : JsString, ∀ entries : List SecretEntry,
      replaceSecretPlaceholdersInUrlParameters url hostname entries false = .ok url) ∧
    (∀ request : HttpHookRequest, ∀ entries : List SecretEntry,
      assertSecretValuesAllowedForHost request (getHostname request) entries false =
          .ok () ↔
        ∀ entry ∈ entries, matchesAnyHost (getHostname request) entry.hosts = false →
          ¬ HeaderSmugglesValue request.headers entry) ∧
    (∀ request : HttpHookRequest, ∀ entries : List SecretEntry,
      applySecretsToRequest false entries request =
        match assertSecretValuesAllowedForHost request (getHostname request) entries
            false with
        | .error e => .error e
        | .ok _ =>
          match replaceSecretPlaceholdersInHeaders request (getHostname request)
              entries with
          | .error e => .error e
          | .ok hs => .ok { request with url := request.url, headers := hs }) ∧
    (∀ request : HttpHookRequest, ∀ entries : List SecretEntry, ∀ entry : SecretEntry,
      entry ∈ entries →
      matchesAnyHost (getHostname request) entry.hosts = false →
      QuerySmugglesValue request.url entry →
      ∃ e, applySecretsToRequest true entries request = .error e) ∧
    (∀ url hostname : JsString, ∀ entries : List SecretEntry, ∀ parsed : ParsedUrl,
      ∀ updatedParams : List (JsString × JsString),
      entries ≠ [] →
      parseUrl url = some parsed →
      searchTruthy parsed = true →
      (parseQueryParams (parsed.search.getD [])).mapM (fun p => do
        let n ← replaceSecretPlaceholdersInString p.1 hostname entries
        let v ← replaceSecretPlaceholdersInString p.2 hostname entries
        pure (n, v)) = .ok updatedParams →
      replaceSecretPlaceholdersInUrlParameters url hostname entries true =
        if updatedParams = parseQueryParams (parsed.search.getD []) then .ok url
        else .ok (serializeUrl { parsed with search :=
          (if serializeParams updatedParams = [] then none
          else some (serializeParams updatedParams)) })) := by
  refine ⟨claim_C6_helper_url_disabled, ?_, ?_, ?_, ?_⟩
  · intro request entries
    unfold assertSecretValuesAllowedForHost
    rw [except_unit_ok_iff,
      assertSecretValuesGo_error_iff request (getHostname request) false entries]
    simp only [Bool.false_eq_true, false_and, or_false]
    push_neg
    rfl
  · intro request entries
    unfold applySecretsToRequest
    cases ha : assertSecretValuesAllowedForHost request (getHostname request) entries
        false with
    | error e =>
      simp only [ha]
      rfl
    | ok u =>
      cases u
      cases hh : replaceSecretPlaceholdersInHeaders request (getHostname request)
          entries with
      | error e =>
        simp only [ha, hh]
        rfl
      | ok hs =>
        simp only [ha, hh, claim_C6_helper_url_disabled]
        rfl
  · intro request entries entry hmem hmf hq
    obtain ⟨e, he⟩ :=
      (assertSecretValuesGo_error_iff request (getHostname request) true entries).mpr
        ⟨entry, hmem, hmf, Or.inr ⟨rfl, hq⟩⟩
    refine ⟨e, ?_⟩
    unfold applySecretsToRequest assertSecretValuesAllowedForHost
    simp only [he]
    rfl
  · intro url hostname entries parsed updatedParams hne hpu hst hmap
    unfold replaceSecretPlaceholdersInUrlParameters
    rw [if_neg (by simp [hne])]
    simp only [hpu]
    rw [if_neg (by simp [hst])]
    simp only [hmap, except_bind_ok]
    by_cases heq : updatedParams = parseQueryParams (parsed.search.getD [])
    · rw [if_pos heq, if_pos heq]
      rfl
    · rw [if_neg heq, if_neg heq]
      rfl

/-- Concrete instance of C6: with the flag on, a secret value present only
in the query of a request to a non-allowed host fails the request, and the
query-replacement pipeline returns the URL unchanged when no placeholder
occurs in its parameters. -/
theorem claim_C6_witness :
    (∃ e, applySecretsToRequest true
      [⟨("T").toList, ("PLACE").toList, ("topsecret").toList, [("api.test").toList]⟩]
      ⟨("GET").toList, ("http://evil.test/?k=topsecret").toList, []⟩ = .error e) ∧
    replaceSecretPlaceholdersInUrlParameters ("http://api.test/?a=b").toList
      ("api.test").toList
      [⟨("T").toList, ("PLACE").toList, ("topsecret").toList, [("api.test").toList]⟩]
      true = .ok ("http://api.test/?a=b").toList := by
  constructor
  · exact claim_C6_query_flag.2.2.2.1
      ⟨("GET").toList, ("http://evil.test/?k=topsecret").toList, []⟩
      [⟨("T").toList, ("PLACE").toList, ("topsecret").toList, [("api.test").toList]⟩]
      ⟨("T").toList, ("PLACE").toList, ("topsecret").toList, [("api.test").toList]⟩
      (by simp)
      (by decide)
      ⟨by decide,
        ⟨("http").toList, none, ("evil.test").toList, none, ("/").toList,
          some (("k=topsecret").toList), none⟩, by decide, by decide,
        (("k").toList, ("topsecret").toList), by decide, Or.inr (by decide)⟩
  · have h := claim_C6_query_flag.2.2.2.2 ("http://api.test/?a=b").toList
      ("api.test").toList
      [⟨("T").toList, ("PLACE").toList, ("topsecret").toList, [("api.test").toList]⟩]
      ⟨("http").toList, none, ("api.test").toList, none, ("/").toList,
        some (("a=b").toList), none⟩
      [(("a").toList, ("b").toList)]
      (by decide) (by decide) (by decide) rfl
    rw [if_pos (by decide)] at h
    exact h


/-! ### Claim C10 -/

/-- The shape of every placeholder the module generates:
`GONDOLIN_SECRET_` followed by 48 hexadecimal characters — 64 characters
total, starting with `G`, with `G` occurring nowhere after position 0. -/
def WellFormedPlaceholder (p : JsString) : Prop :=
  p.length = 64 ∧ p.headD ' ' = 'G' ∧ ∀ a ∈ p.tail, a ≠ 'G'

theorem lowerHex_ne_G {c : Char} (h : isLowerHexDigit c = true) : c ≠ 'G' := by
  intro hc
  rw [hc] at h
  exact absurd h (by decide)

theorem placeholderFor_wellFormed (rng : Nat → Nat) (i : Nat) :
    WellFormedPlaceholder (placeholderFor rng i) := by
  obtain ⟨hex, hph, hlen, hhex⟩ := placeholderFor_spec rng i
  rw [hph]
  refine ⟨?_, ?_, ?_⟩
  · rw [List.length_append, hlen]
    rfl
  · rfl
  · intro a ha
    have ha2 : a ∈ ("ONDOLIN_SECRET_").toList ++ hex := ha
    rcases List.mem_append.mp ha2 with h1 | h2
    · have hall : ∀ x ∈ ("ONDOLIN_SECRET_").toList, x ≠ 'G' := by decide
      exact hall a h1
    · exact lowerHex_ne_G (hhex a h2)

theorem wf_placeholder_ne_nil {p : JsString} (hp : WellFormedPlaceholder p) :
    p ≠ [] := by
  intro h
  rw [h] at hp
  exact absurd hp.1 (by decide)

theorem wf_placeholder_head {p : JsString} (hp : WellFormedPlaceholder p) :
    ∃ t, p = 'G' :: t := by
  cases p with
  | nil => exact absurd rfl (wf_placeholder_ne_nil hp)
  | cons a t =>
    refine ⟨t, ?_⟩
    have := hp.2.1
    simp only [List.headD_cons] at this
    rw [this]

theorem headD_append_left (l1 l2 : JsString) (h : l1 ≠ []) (d : Char) :
    (l1 ++ l2).headD d = l1.headD d := by
  cases l1 with
  | nil => exact absurd rfl h
  | cons a t => rfl

theorem replaceAllGo_keeps_noG {p : JsString} (v : JsString) (hpne : p ≠ [])
    (hphead : p.headD ' ' = 'G') :
    ∀ (r t : JsString), r <+: t → (∀ a ∈ r, a ≠ 'G') →
      r <+: replaceAllGo p v t := by
  intro r
  induction r with
  | nil =>
    intro t _ _
    exact List.nil_prefix
  | cons a r2 ih =>
    intro t hpre hnoG
    obtain ⟨w, hw⟩ := hpre
    subst hw
    simp only [List.cons_append]
    rw [replaceAllGo]
    rw [dif_neg (by
      rintro ⟨_, hpp⟩
      cases p with
      | nil => exact hpne rfl
      | cons b bt =>
        simp only [List.headD_cons] at hphead
        have := (List.cons_prefix_cons.mp hpp).1
        exact hnoG a (List.mem_cons_self a r2) (by rw [← this, hphead]))]
    rw [List.cons_prefix_cons]
    exact ⟨rfl, ih (r2 ++ w) ⟨w, rfl⟩
      (fun x hx => hnoG x (List.mem_cons_of_mem a hx))⟩

theorem survive_replaceAllGo_aux {p q v : JsString}
    (hp : WellFormedPlaceholder p) (hq : WellFormedPlaceholder q) (hne : p ≠ q) :
    ∀ (n : Nat) (s : JsString), s.length ≤ n → q <:+: s →
      q <:+: replaceAllGo p v s := by
  have hpne : p ≠ [] := wf_placeholder_ne_nil hp
  have hqne : q ≠ [] := wf_placeholder_ne_nil hq
  intro n
  induction n with
  | zero =>
    intro s hs hinf
    have hnil : s = [] := List.eq_nil_of_length_eq_zero (by omega)
    subst hnil
    exact absurd (List.eq_nil_of_infix_nil hinf) hqne
  | succ n ih =>
    intro s hs hinf
    cases s with
    | nil => exact absurd (List.eq_nil_of_infix_nil hinf) hqne
    | cons c rest =>
      by_cases hpp : p <+: (c :: rest)
      · rw [replaceAllGo, dif_pos ⟨hpne, hpp⟩]
        obtain ⟨pre, suf, hdecomp⟩ := hinf
        by_cases hpre_nil : pre = []
        · exfalso
          have hq2 : q <+: c :: rest := ⟨suf, by rw [← hdecomp, hpre_nil]; rfl⟩
          have hqp : q = p :=
            (List.prefix_of_prefix_length_le hq2 hpp
              (by rw [hq.1, hp.1])).eq_of_length (by rw [hq.1, hp.1])
          exact hne hqp.symm
        · by_cases hprelt : pre.length < p.length
          · exfalso
            obtain ⟨t0, ht0⟩ := hpp
            have hdrop1 : (c :: rest).drop pre.length = q ++ suf := by
              rw [← hdecomp, List.append_assoc]
              exact List.drop_left pre (q ++ suf)
            have hdrop2 : (c :: rest).drop pre.length = p.drop pre.length ++ t0 := by
              rw [← ht0, List.drop_append_eq_append_drop,
                Nat.sub_eq_zero_of_le (le_of_lt hprelt), List.drop_zero]
            have hne_drop : p.drop pre.length ≠ [] := by
              intro hcon
              have := List.drop_eq_nil_iff.mp hcon
              have hp1 := hp.1
              omega
            obtain ⟨qt, hqG⟩ := wf_placeholder_head hq
            have h1 : ((c :: rest).drop pre.length).headD ' ' = 'G' := by
              rw [hdrop1, hqG]
              rfl
            have h2 : ((c :: rest).drop pre.length).headD ' ' =
                (p.drop pre.length).headD ' ' := by
              rw [hdrop2]
              exact headD_append_left _ _ hne_drop ' '
            have hpre_pos : 0 < pre.length :=
              List.length_pos_of_ne_nil hpre_nil
            cases hd : p.drop pre.length with
            | nil => exact hne_drop hd
            | cons b bt =>
              have hbmem : b ∈ p.tail := by
                have hstep : p.drop pre.length = (p.drop 1).drop (pre.length - 1) := by
                  rw [List.drop_drop]
                  congr 1
                  omega
                have hsub : p.drop pre.length ⊆ p.tail := by
                  rw [hstep, List.drop_one]
                  exact List.drop_subset _ _
                exact hsub (by rw [hd]; exact List.mem_cons_self b bt)
              have hbG : b = 'G' := by
                rw [hd] at h2
                simp only [List.headD_cons] at h2
                rw [h1] at h2
                exact h2.symm
              exact hp.2.2 b hbmem hbG
          · have hple : p.length ≤ pre.length := le_of_not_lt hprelt
            have hpre2 : pre <+: c :: rest :=
              ⟨q ++ suf, by rw [← List.append_assoc]; exact hdecomp⟩
            obtain ⟨pre2, hpre2eq⟩ :=
              List.prefix_of_prefix_length_le hpp hpre2 hple
            have hdropin : (c :: rest).drop p.length = pre2 ++ q ++ suf := by
              have hshape : pre ++ q ++ suf = p ++ (pre2 ++ q ++ suf) := by
                rw [← hpre2eq]
                simp [List.append_assoc]
              rw [← hdecomp, hshape]
              exact List.drop_left p _
            have hlen2 : ((c :: rest).drop p.length).length ≤ n := by
              simp only [List.length_drop, List.length_cons]
              have hp1 := hp.1
              simp only [List.length_cons] at hs
              omega
            have hrec := ih ((c :: rest).drop p.length) hlen2
              ⟨pre2, suf, hdropin.symm⟩
            exact hrec.trans (List.suffix_append v _).isInfix
      · rw [replaceAllGo, dif_neg (fun hcon => hpp hcon.2)]
        rcases List.infix_cons_iff.mp hinf with hqp | hqrest
        · obtain ⟨qt, hqG⟩ := wf_placeholder_head hq
          rw [hqG] at hqp
          have hGc := (List.cons_prefix_cons.mp hqp).1
          have hqt := (List.cons_prefix_cons.mp hqp).2
          have hnoG : ∀ a ∈ qt, a ≠ 'G' := by
            intro a ha
            exact hq.2.2 a (by rw [hqG]; exact ha)
          have hsurv := replaceAllGo_keeps_noG v hpne hp.2.1 qt rest hqt hnoG
          have : q <+: c :: replaceAllGo p v rest := by
            rw [hqG, List.cons_prefix_cons]
            exact ⟨hGc, hsurv⟩
          exact this.isInfix
        · exact List.infix_cons (ih rest
            (by simp only [List.length_cons] at hs; omega) hqrest)

theorem survive_replaceAll {p q v s : JsString}
    (hp : WellFormedPlaceholder p) (hq : WellFormedPlaceholder q) (hne : p ≠ q)
    (h : q <:+: s) : q <:+: replaceAll s p v := by
  unfold replaceAll
  rw [if_neg (wf_placeholder_ne_nil hp)]
  exact survive_replaceAllGo_aux hp hq hne s.length s le_rfl h

theorem replaceGo_error_of_offending (hostname : JsString) (entry : SecretEntry)
    (hmfq : matchesAnyHost hostname entry.hosts = false) :
    ∀ (entries : List SecretEntry), entry ∈ entries →
      (∀ e ∈ entries, WellFormedPlaceholder e.placeholder) →
      entries.Pairwise (fun e1 e2 => e1.placeholder ≠ e2.placeholder) →
      ∀ value : JsString, entry.placeholder <:+: value →
        ∃ e, replaceSecretPlaceholdersGo hostname value entries = .error e := by
  intro entries
  induction entries with
  | nil =>
    intro hmem
    exact absurd hmem (List.not_mem_nil entry)
  | cons e0 rest ih =>
    intro hmem hwf hdist value hocc
    rw [replaceSecretPlaceholdersGo]
    rcases List.mem_cons.mp hmem with heq | hmem2
    · subst heq
      have hinc : jsIncludes value entry.placeholder = true :=
        decide_eq_true_iff.mpr hocc
      rw [hinc]
      have hassert : assertSecretAllowedForHost entry hostname =
          .error (.blocked (blockedMessage entry hostname)) := by
        unfold assertSecretAllowedForHost
        rw [if_neg (by simp [hmfq])]
      simp only [Bool.not_true, hassert]
      exact ⟨.blocked (blockedMessage entry hostname), by rw [if_neg (by simp)]⟩
    · have hne0 : e0.placeholder ≠ entry.placeholder :=
        (List.pairwise_cons.mp hdist).1 entry hmem2
      have hwfrest : ∀ e ∈ rest, WellFormedPlaceholder e.placeholder :=
        fun e he => hwf e (List.mem_cons_of_mem e0 he)
      have hdistrest := (List.pairwise_cons.mp hdist).2
      by_cases hinc : jsIncludes value e0.placeholder = true
      · rw [hinc]
        cases hassert : assertSecretAllowedForHost e0 hostname with
        | error e =>
          simp only [Bool.not_true, hassert]
          exact ⟨e, by rw [if_neg (by simp)]⟩
        | ok u =>
          cases u
          simp only [Bool.not_true, hassert]
          rw [if_neg (by simp)]
          exact ih hmem2 hwfrest hdistrest
            (replaceAll value e0.placeholder e0.value)
            (survive_replaceAll (hwf e0 (List.mem_cons_self e0 rest))
              (hwf entry hmem) hne0 hocc)
      · rw [Bool.not_eq_true] at hinc
        rw [hinc]
        rw [if_pos (by simp)]
        exact ih hmem2 hwfrest hdistrest value hocc

theorem mapM_ok_mem {α β : Type} (f : α → Except HttpError β) :
    ∀ (l : List α) (ys : List β), l.mapM f = .ok ys → ∀ x ∈ l, ∃ y, f x = .ok y := by
  intro l
  induction l with
  | nil =>
    intro ys _ x hx
    exact absurd hx (List.not_mem_nil x)
  | cons a l2 ih =>
    intro ys h x hx
    rw [List.mapM_cons] at h
    cases hfa : f a with
    | error e =>
      rw [hfa] at h
      have h2 : (Except.error e : Except HttpError (List β)) = .ok ys := h
      cases h2
    | ok b =>
      rw [hfa] at h
      cases hml : l2.mapM f with
      | error e =>
        rw [hml] at h
        have h2 : (Except.error e : Except HttpError (List β)) = .ok ys := h
        cases h2
      | ok bs =>
        rcases List.mem_cons.mp hx with heq | hx2
        · subst heq
          exact ⟨b, hfa⟩
        · exact ih bs hml x hx2

theorem except_error_of_not_ok {β : Type} (r : Except HttpError β)
    (h : ∀ ys, r ≠ .ok ys) : ∃ e, r = .error e := by
  cases r with
  | ok y => exact absurd rfl (h y)
  | error e => exact ⟨e, rfl⟩

theorem replaceHeaders_error_of_offending (request : HttpHookRequest)
    (hostname : JsString) (entries : List SecretEntry) (entry : SecretEntry)
    (header : JsString × JsString)
    (hheader : header ∈ request.headers) (hmem : entry ∈ entries)
    (hwf : ∀ e ∈ entries, WellFormedPlaceholder e.placeholder)
    (hdist : entries.Pairwise (fun e1 e2 => e1.placeholder ≠ e2.placeholder))
    (hmf : matchesAnyHost hostname entry.hosts = false)
    (hocc : entry.placeholder <:+: header.2) :
    ∃ e, replaceSecretPlaceholdersInHeaders request hostname entries = .error e := by
  unfold replaceSecretPlaceholdersInHeaders
  rw [if_neg (by
    intro hcon
    rw [hcon] at hmem
    exact absurd hmem (List.not_mem_nil entry))]
  apply except_error_of_not_ok
  intro ys hok
  obtain ⟨y, hy⟩ := mapM_ok_mem _ request.headers ys hok header hheader
  obtain ⟨e, he⟩ := replaceGo_error_of_offending hostname entry hmf entries hmem
    hwf hdist header.2 hocc
  have he2 : replaceSecretPlaceholdersInString header.2 hostname entries =
      .error e := he
  have hy2 : (replaceSecretPlaceholdersInString header.2 hostname entries >>=
      fun updated => replaceBasicAuthSecretPlaceholders header.1 updated hostname
        entries >>= fun updated2 => pure (header.1, updated2)) = Except.ok y := hy
  rw [he2] at hy2
  have hy3 : (Except.error e : Except HttpError (JsString × JsString)) =
      .ok y := hy2
  cases hy3

/-- C10: when the request URL does not parse, the target hostname is the
empty string; then a header carrying the placeholder of a secret none of
whose (pairwise-distinct, generator-shaped) placeholders' host patterns
matches the empty hostname — in particular `*` is not among its patterns —
makes the whole pass fail with `HttpRequestBlockedError` rather than
substituting the secret value. -/
theorem claim_C10_unparseable_url (flag : Bool) (request : HttpHookRequest)
    (entries : List SecretEntry) (entry : SecretEntry)
    (header : JsString × JsString)
    (hparse : parseUrl request.url = none)
    (hwf : ∀ e ∈ entries, WellFormedPlaceholder e.placeholder)
    (hdist : entries.Pairwise (fun e1 e2 => e1.placeholder ≠ e2.placeholder))
    (hheader : header ∈ request.headers) (hmem : entry ∈ entries)
    (hocc : entry.placeholder <:+: header.2)
    (hmf : matchesAnyHost [] entry.hosts = false) :
    getHostname request = [] ∧ ('*' :: []) ∉ entry.hosts ∧
      ∃ e, applySecretsToRequest flag entries request = .error e := by
  have hhost : getHostname request = [] := by
    unfold getHostname
    rw [hparse]
  refine ⟨hhost, ?_, ?_⟩
  · intro hstar
    have hmatch : matchesAnyHost [] entry.hosts = true := by
      unfold matchesAnyHost
      rw [List.any_eq_true]
      exact ⟨('*' :: []), hstar, by decide⟩
    rw [hmf] at hmatch
    cases hmatch
  · unfold applySecretsToRequest
    cases ha : assertSecretValuesAllowedForHost request (getHostname request)
        entries flag with
    | error e =>
      refine ⟨e, ?_⟩
      simp only [ha]
      rfl
    | ok u =>
      cases u
      obtain ⟨e, he⟩ := replaceHeaders_error_of_offending request
        (getHostname request) entries entry header hheader hmem hwf hdist
        (by rw [hhost]; exact hmf) hocc
      refine ⟨e, ?_⟩
      simp only [ha, he]
      rfl

/-- Concrete instance of C10: a request whose URL is not parseable and whose
header holds a generator-shaped placeholder of a secret allowed only for
`api.test` is failed, and its hostname is the empty string. -/
theorem claim_C10_witness :
    getHostname ⟨("GET").toList, ("not a url").toList,
      [(("x-api-key").toList,
        ("GONDOLIN_SECRET_000000000000000000000000000000000000000000000000").toList)]⟩
      = [] ∧
    ('*' :: []) ∉ [("api.test").toList] ∧
    ∃ e, applySecretsToRequest false
      [⟨("K").toList,
        ("GONDOLIN_SECRET_000000000000000000000000000000000000000000000000").toList,
        ("v").toList, [("api.test").toList]⟩]
      ⟨("GET").toList, ("not a url").toList,
        [(("x-api-key").toList,
          ("GONDOLIN_SECRET_000000000000000000000000000000000000000000000000").toList)]⟩
      = .error e :=
  claim_C10_unparseable_url false
    ⟨("GET").toList, ("not a url").toList,
      [(("x-api-key").toList,
        ("GONDOLIN_SECRET_000000000000000000000000000000000000000000000000").toList)]⟩
    [⟨("K").toList,
      ("GONDOLIN_SECRET_000000000000000000000000000000000000000000000000").toList,
      ("v").toList, [("api.test").toList]⟩]
    ⟨("K").toList,
      ("GONDOLIN_SECRET_000000000000000000000000000000000000000000000000").toList,
      ("v").toList, [("api.test").toList]⟩
    (("x-api-key").toList,
      ("GONDOLIN_SECRET_000000000000000000000000000000000000000000000000").toList)
    (by decide)
    (by
      intro e he
      rw [List.mem_singleton.mp he]
      exact ⟨by decide, by decide, by decide⟩)
    (by simp)
    (by simp)
    (by simp)
    ⟨[], [], by simp⟩
    (by decide)

end Gondolin
